import Mathlib

/-!
Verification of the reconciliation engine of `rabbit-validator`.

The development shallowly embeds `src/diff.js` and `src/deploy.js`.
Resource records are structures whose identity fields follow the data
model table of the specification; all remaining (non-identity) fields of
a record are collapsed into an opaque `payload`/`properties_key` string,
which participates only in deep-equality change detection, exactly as in
the source (`isDeepStrictEqual` compares whole records).

`Index.js` and `HashSet.js` are not part of the sources at hand; their
behaviour is modelled from the spec (see `Index.fromDefinitions` below).
-/

namespace RabbitValidator

/-- A vhost record. Identity key: `name`. `payload` stands for all
non-identity fields (description, tags, ...). -/
structure Vhost where
  name : String
  payload : String
deriving DecidableEq, Repr

/-- A user record. Identity key: `name`. -/
structure User where
  name : String
  payload : String
deriving DecidableEq, Repr

/-- A queue record. Identity key: `(vhost, name)`. -/
structure Queue where
  vhost : String
  name : String
  payload : String
deriving DecidableEq, Repr

/-- An exchange record. Identity key: `(vhost, name)`. -/
structure Exchange where
  vhost : String
  name : String
  payload : String
deriving DecidableEq, Repr

/-- A binding record. Identity key:
`(vhost, source, destination, destination_type, routing_key, arguments)`.
`properties_key` is the non-identity field used by the delete URL. -/
structure Binding where
  vhost : String
  source : String
  destination : String
  destination_type : String
  routing_key : String
  arguments : String
  properties_key : String
deriving DecidableEq, Repr

/-- A permission (or topic-permission) record. Identity key: `(vhost, user)`. -/
structure Permission where
  vhost : String
  user : String
  payload : String
deriving DecidableEq, Repr

def Vhost.key (r : Vhost) : String := r.name

def User.key (r : User) : String := r.name

def Queue.key (r : Queue) : String × String := (r.vhost, r.name)

def Exchange.key (r : Exchange) : String × String := (r.vhost, r.name)

def Binding.key (r : Binding) : String × String × String × String × String × String :=
  (r.vhost, r.source, r.destination, r.destination_type, r.routing_key, r.arguments)

def Permission.key (r : Permission) : String × String := (r.vhost, r.user)

/-- A definitions snapshot: seven optional sequences of records (a missing
sequence is the empty list). -/
structure Definitions where
  vhosts : List Vhost := []
  users : List User := []
  queues : List Queue := []
  exchanges : List Exchange := []
  bindings : List Binding := []
  permissions : List Permission := []
  topic_permissions : List Permission := []
deriving DecidableEq, Repr

/-- Modelled from the spec: `HashSet.js` insertion (not under `src/`).
The Content-Addressed Set keys each record by its identity; inserting a
record whose identity is already present overwrites the stored record
(last write wins) while keeping the original position, as a JS `Map`
does. -/
def insertLWW {α K : Type} [DecidableEq K] (key : α → K) (acc : List α) (x : α) : List α :=
  if acc.any (fun y => key y == key x) then
    acc.map (fun y => if key y == key x then x else y)
  else
    acc ++ [x]

/-- Modelled from the spec: building one typed collection of `Index.js`
(not under `src/`): every record of the definitions sequence is inserted
into a Content-Addressed Set keyed by its identity. -/
def indexList {α K : Type} [DecidableEq K] (key : α → K) (l : List α) : List α :=
  l.foldl (insertLWW key) []

/-- The identity index: one Content-Addressed Set per resource type, each
represented by its list of members in insertion order. -/
structure Index where
  vhosts : List Vhost
  users : List User
  queues : List Queue
  exchanges : List Exchange
  bindings : List Binding
  permissions : List Permission
  topic_permissions : List Permission
deriving DecidableEq, Repr

/-- Modelled from the spec: `Index.fromDefinitions` of `Index.js` (not
under `src/`): builds the seven typed collections from a definitions
snapshot, keyed by the identity keys of the data-model table.  The
`ignoreIndex` argument is omitted: the embedded `diff` below models the
default `ignoreList = null` path of `diff.js`. -/
def Index.fromDefinitions (d : Definitions) : Index where
  vhosts := indexList Vhost.key d.vhosts
  users := indexList User.key d.users
  queues := indexList Queue.key d.queues
  exchanges := indexList Exchange.key d.exchanges
  bindings := indexList Binding.key d.bindings
  permissions := indexList Permission.key d.permissions
  topic_permissions := indexList Permission.key d.topic_permissions

/-- The result of `diffMapsConsuming` for one resource type
(`src/diff.js` lines 7-39). -/
structure DiffResult (α : Type) where
  added : List α
  deleted : List α
  changed : List (α × α)
  unaffected : List α
deriving DecidableEq, Repr

/-- `diffMapsConsuming` of `src/diff.js` (lines 7-39): iterate over the
`after` set; look the item up in `before` by identity, removing both; a
missing match is `added`, a deep-unequal match is `changed`
(before/after pair), an equal match is `unaffected`.  Whatever remains
of `before` afterwards is `deleted`. -/
def diffMapsConsuming {α K : Type} [DecidableEq α] [DecidableEq K]
    (key : α → K) : List α → List α → DiffResult α
  | before, [] => ⟨[], before, [], []⟩
  | before, a :: rest =>
    match before.find? (fun b => key b == key a) with
    | none =>
      let r := diffMapsConsuming key before rest
      { r with added := a :: r.added }
    | some b =>
      let r := diffMapsConsuming key (before.eraseP (fun x => key x == key a)) rest
      if b = a then { r with unaffected := a :: r.unaffected }
      else { r with changed := (b, a) :: r.changed }

/-- One change map of `diff` (`makeChangeMap`, `src/diff.js` lines 41-51):
a typed sequence per resource type. -/
structure ChangeMap where
  vhosts : List Vhost := []
  users : List User := []
  queues : List Queue := []
  exchanges : List Exchange := []
  bindings : List Binding := []
  permissions : List Permission := []
  topic_permissions : List Permission := []
deriving DecidableEq, Repr

/-- The change map holding before/after pairs for `changed`. -/
structure ChangedMap where
  vhosts : List (Vhost × Vhost) := []
  users : List (User × User) := []
  queues : List (Queue × Queue) := []
  exchanges : List (Exchange × Exchange) := []
  bindings : List (Binding × Binding) := []
  permissions : List (Permission × Permission) := []
  topic_permissions : List (Permission × Permission) := []
deriving DecidableEq, Repr

/-- The predicate of the `unaffected.bindings.filter` of `src/diff.js`
(lines 76-98): a structurally unaffected binding is implicitly affected
when a changed exchange (before record) in its vhost is its source, or
its destination for `destination_type === 'exchange'`; else, when its
destination type is `queue` and a changed queue (before record) in its
vhost is its destination. -/
def bindingImplicitlyAffected (changedExchanges : List (Exchange × Exchange))
    (changedQueues : List (Queue × Queue)) (b : Binding) : Bool :=
  if changedExchanges.any (fun p =>
      p.1.vhost == b.vhost &&
        (p.1.name == b.source ||
          (b.destination_type == "exchange" && p.1.name == b.destination))) then
    true
  else if b.destination_type != "queue" then
    false
  else
    changedQueues.any (fun p =>
      p.1.vhost == b.vhost && (p.1.name == b.destination && b.destination_type == "queue"))

/-- The full diff output.  `src/diff.js` returns
`{ added, deleted, changed, implicitlyAffected }`; the `unaffected`
change map is the internal classification computed alongside them, kept
here so the classification claims can speak about it. -/
structure DiffOutput where
  added : ChangeMap
  deleted : ChangeMap
  changed : ChangedMap
  unaffected : ChangeMap
  implicitlyAffected : List Binding
deriving DecidableEq, Repr

/-- `diff` of `src/diff.js` (lines 53-111): build the before and after
indexes, run `diffMapsConsuming` per resource type, and filter the
structurally unaffected bindings through the implicit-affect predicate
driven by the changed exchanges and queues. -/
def diff (beforeDef afterDef : Definitions) : DiffOutput :=
  let before := Index.fromDefinitions beforeDef
  let after := Index.fromDefinitions afterDef
  let dv := diffMapsConsuming Vhost.key before.vhosts after.vhosts
  let dq := diffMapsConsuming Queue.key before.queues after.queues
  let de := diffMapsConsuming Exchange.key before.exchanges after.exchanges
  let db := diffMapsConsuming Binding.key before.bindings after.bindings
  let du := diffMapsConsuming User.key before.users after.users
  let dp := diffMapsConsuming Permission.key before.permissions after.permissions
  let dt := diffMapsConsuming Permission.key before.topic_permissions after.topic_permissions
  { added := ⟨dv.added, du.added, dq.added, de.added, db.added, dp.added, dt.added⟩
    deleted := ⟨dv.deleted, du.deleted, dq.deleted, de.deleted, db.deleted, dp.deleted, dt.deleted⟩
    changed := ⟨dv.changed, du.changed, dq.changed, de.changed, db.changed, dp.changed, dt.changed⟩
    unaffected := ⟨dv.unaffected, du.unaffected, dq.unaffected, de.unaffected, db.unaffected,
      dp.unaffected, dt.unaffected⟩
    implicitlyAffected := db.unaffected.filter (bindingImplicitlyAffected de.changed dq.changed) }


/-! ### Generic lemmas about `diffMapsConsuming` -/

section DiffLemmas

variable {α K : Type} [DecidableEq α] [DecidableEq K]

lemma diffMapsConsuming_nil (key : α → K) (before : List α) :
    diffMapsConsuming key before [] = ⟨[], before, [], []⟩ := by
  simp [diffMapsConsuming]

lemma diffMapsConsuming_cons_none (key : α → K) {before : List α} {a : α} (rest : List α)
    (h : before.find? (fun b => key b == key a) = none) :
    diffMapsConsuming key before (a :: rest) =
      { diffMapsConsuming key before rest with
        added := a :: (diffMapsConsuming key before rest).added } := by
  simp only [diffMapsConsuming, h]

lemma diffMapsConsuming_cons_some_eq (key : α → K) {before : List α} {a b : α} (rest : List α)
    (h : before.find? (fun x => key x == key a) = some b) (hba : b = a) :
    diffMapsConsuming key before (a :: rest) =
      { diffMapsConsuming key (before.eraseP (fun x => key x == key a)) rest with
        unaffected :=
          a :: (diffMapsConsuming key (before.eraseP (fun x => key x == key a)) rest).unaffected } := by
  simp [diffMapsConsuming, h, hba]

lemma diffMapsConsuming_cons_some_ne (key : α → K) {before : List α} {a b : α} (rest : List α)
    (h : before.find? (fun x => key x == key a) = some b) (hba : b ≠ a) :
    diffMapsConsuming key before (a :: rest) =
      { diffMapsConsuming key (before.eraseP (fun x => key x == key a)) rest with
        changed :=
          (b, a) :: (diffMapsConsuming key (before.eraseP (fun x => key x == key a)) rest).changed } := by
  simp [diffMapsConsuming, h, hba]

lemma find?_perm_eraseP {p : α → Bool} :
    ∀ {l : List α} {b : α}, l.find? p = some b → List.Perm l (b :: l.eraseP p)
  | [], b, h => by simp at h
  | x :: xs, b, h => by
    by_cases hx : p x
    · rw [List.find?_cons_of_pos _ hx] at h
      cases h
      simp [List.eraseP_cons, hx]
    · rw [List.find?_cons_of_neg _ hx] at h
      have ih := find?_perm_eraseP h
      have h1 : List.Perm (x :: xs) (x :: b :: xs.eraseP p) := ih.cons x
      have h2 : List.Perm (x :: b :: xs.eraseP p) (b :: x :: xs.eraseP p) :=
        List.Perm.swap b x (xs.eraseP p)
      have h3 := h1.trans h2
      simpa [List.eraseP_cons, hx] using h3

/-- Every record of the after set is classified exactly once across
`added`, `changed` (after component) and `unaffected`. -/
lemma diff_perm_after (key : α → K) :
    ∀ (after before : List α),
      List.Perm ((diffMapsConsuming key before after).added
        ++ ((diffMapsConsuming key before after).changed.map Prod.snd
        ++ (diffMapsConsuming key before after).unaffected)) after
  | [], before => by simp [diffMapsConsuming_nil]
  | a :: rest, before => by
    rcases hf : before.find? (fun b => key b == key a) with _ | b
    · rw [diffMapsConsuming_cons_none key rest hf]
      simpa using (diff_perm_after key rest before).cons a
    · by_cases hba : b = a
      · rw [diffMapsConsuming_cons_some_eq key rest hf hba]
        have ih := diff_perm_after key rest (before.eraseP (fun x => key x == key a))
        set r := diffMapsConsuming key (before.eraseP (fun x => key x == key a)) rest with hr
        have h1 : List.Perm (r.added ++ (r.changed.map Prod.snd ++ a :: r.unaffected))
            (a :: (r.added ++ (r.changed.map Prod.snd ++ r.unaffected))) := by
          have hm : List.Perm ((r.added ++ r.changed.map Prod.snd) ++ a :: r.unaffected)
              (a :: ((r.added ++ r.changed.map Prod.snd) ++ r.unaffected)) :=
            List.perm_middle
          simpa using hm
        exact h1.trans (ih.cons a)
      · rw [diffMapsConsuming_cons_some_ne key rest hf hba]
        have ih := diff_perm_after key rest (before.eraseP (fun x => key x == key a))
        set r := diffMapsConsuming key (before.eraseP (fun x => key x == key a)) rest with hr
        have h1 : List.Perm (r.added ++ ((a :: r.changed.map Prod.snd) ++ r.unaffected))
            (a :: (r.added ++ (r.changed.map Prod.snd ++ r.unaffected))) := by
          have hm : List.Perm (r.added ++ a :: (r.changed.map Prod.snd ++ r.unaffected))
              (a :: (r.added ++ (r.changed.map Prod.snd ++ r.unaffected))) :=
            List.perm_middle
          simpa using hm
        simpa using h1.trans (ih.cons a)

/-- Every record of the before set is classified exactly once across
`deleted`, `changed` (before component) and `unaffected`. -/
lemma diff_perm_before (key : α → K) :
    ∀ (after before : List α),
      List.Perm ((diffMapsConsuming key before after).deleted
        ++ ((diffMapsConsuming key before after).changed.map Prod.fst
        ++ (diffMapsConsuming key before after).unaffected)) before
  | [], before => by simp [diffMapsConsuming_nil]
  | a :: rest, before => by
    rcases hf : before.find? (fun b => key b == key a) with _ | b
    · rw [diffMapsConsuming_cons_none key rest hf]
      simpa using diff_perm_before key rest before
    · have hperm : List.Perm before (b :: before.eraseP (fun x => key x == key a)) :=
        find?_perm_eraseP hf
      have ih := diff_perm_before key rest (before.eraseP (fun x => key x == key a))
      set r := diffMapsConsuming key (before.eraseP (fun x => key x == key a)) rest with hr
      by_cases hba : b = a
      · rw [diffMapsConsuming_cons_some_eq key rest hf hba]
        have h1 : List.Perm (r.deleted ++ (r.changed.map Prod.fst ++ a :: r.unaffected))
            (a :: (r.deleted ++ (r.changed.map Prod.fst ++ r.unaffected))) := by
          have hm : List.Perm ((r.deleted ++ r.changed.map Prod.fst) ++ a :: r.unaffected)
              (a :: ((r.deleted ++ r.changed.map Prod.fst) ++ r.unaffected)) :=
            List.perm_middle
          simpa using hm
        subst hba
        exact (h1.trans (ih.cons b)).trans hperm.symm
      · rw [diffMapsConsuming_cons_some_ne key rest hf hba]
        have h1 : List.Perm (r.deleted ++ ((b :: r.changed.map Prod.fst) ++ r.unaffected))
            (b :: (r.deleted ++ (r.changed.map Prod.fst ++ r.unaffected))) := by
          have hm : List.Perm (r.deleted ++ b :: (r.changed.map Prod.fst ++ r.unaffected))
              (b :: (r.deleted ++ (r.changed.map Prod.fst ++ r.unaffected))) :=
            List.perm_middle
          simpa using hm
        simpa using (h1.trans (ih.cons b)).trans hperm.symm

lemma diff_deleted_sublist (key : α → K) :
    ∀ (after before : List α),
      List.Sublist (diffMapsConsuming key before after).deleted before
  | [], before => by simp [diffMapsConsuming_nil]
  | a :: rest, before => by
    rcases hf : before.find? (fun b => key b == key a) with _ | b
    · rw [diffMapsConsuming_cons_none key rest hf]
      exact diff_deleted_sublist key rest before
    · have hsub : List.Sublist (before.eraseP (fun x => key x == key a)) before :=
        List.eraseP_sublist before
      by_cases hba : b = a
      · rw [diffMapsConsuming_cons_some_eq key rest hf hba]
        exact (diff_deleted_sublist key rest _).trans hsub
      · rw [diffMapsConsuming_cons_some_ne key rest hf hba]
        exact (diff_deleted_sublist key rest _).trans hsub

/-- Both components of a `changed` pair carry the same identity. -/
lemma diff_changed_key (key : α → K) :
    ∀ (after before : List α) (p : α × α),
      p ∈ (diffMapsConsuming key before after).changed → key p.1 = key p.2
  | [], before, p => by simp [diffMapsConsuming_nil]
  | a :: rest, before, p => by
    rcases hf : before.find? (fun b => key b == key a) with _ | b
    · rw [diffMapsConsuming_cons_none key rest hf]
      exact diff_changed_key key rest before p
    · by_cases hba : b = a
      · rw [diffMapsConsuming_cons_some_eq key rest hf hba]
        exact diff_changed_key key rest _ p
      · rw [diffMapsConsuming_cons_some_ne key rest hf hba]
        intro hp
        rcases List.mem_cons.mp hp with hp | hp
        · subst hp
          have := List.find?_some hf
          simpa using this
        · exact diff_changed_key key rest _ p hp

/-- After erasing the found identity from a duplicate-free-keyed list,
the identity is gone. -/
lemma key_not_mem_eraseP (key : α → K) {c : α} :
    ∀ {l : List α}, (l.map key).Nodup →
      (l.any (fun x => key x == key c)) = true →
      key c ∉ (l.eraseP (fun x => key x == key c)).map key
  | [], _, h => by simp at h
  | x :: xs, hnd, h => by
    rw [List.map_cons, List.nodup_cons] at hnd
    by_cases hx : key x == key c
    · have hxc : key x = key c := by simpa using hx
      have he : (x :: xs).eraseP (fun x => key x == key c) = xs := by
        simp [List.eraseP_cons, hx]
      rw [he]
      rw [hxc] at hnd
      exact hnd.1
    · have hany : (xs.any (fun x => key x == key c)) = true := by
        rcases List.any_eq_true.mp h with ⟨y, hy, hpy⟩
        rcases List.mem_cons.mp hy with rfl | hy
        · exact absurd hpy hx
        · exact List.any_eq_true.mpr ⟨y, hy, hpy⟩
      have ih := key_not_mem_eraseP key hnd.2 hany
      have he : (x :: xs).eraseP (fun x => key x == key c) =
          x :: xs.eraseP (fun x => key x == key c) := by
        simp [List.eraseP_cons, hx]
      rw [he, List.map_cons]
      intro hmem
      rcases List.mem_cons.mp hmem with hm | hm
      · exact hx (by simp [hm])
      · exact ih hm

lemma find?_any (key : α → K) {before : List α} {a b : α}
    (hf : before.find? (fun x => key x == key a) = some b) :
    before.any (fun x => key x == key a) = true := by
  have h1 := List.mem_of_find?_eq_some hf
  have h2 := List.find?_some hf
  exact List.any_eq_true.mpr ⟨b, h1, h2⟩

/-- No identity is classified both on the after side (`added`, `changed`,
`unaffected`) and as `deleted`. -/
lemma diff_keys_disjoint (key : α → K) :
    ∀ (after before : List α), (before.map key).Nodup → (after.map key).Nodup →
      ∀ x ∈ (diffMapsConsuming key before after).added
          ++ ((diffMapsConsuming key before after).changed.map Prod.snd
          ++ (diffMapsConsuming key before after).unaffected),
        ∀ y ∈ (diffMapsConsuming key before after).deleted, key x ≠ key y
  | [], before, hb, ha => by simp [diffMapsConsuming_nil]
  | a :: rest, before, hb, ha => by
    have ha' : (rest.map key).Nodup := (List.nodup_cons.mp (by simpa using ha)).2
    rcases hf : before.find? (fun b => key b == key a) with _ | b
    · rw [diffMapsConsuming_cons_none key rest hf]
      intro x hx y hy
      simp only [List.cons_append, List.mem_cons] at hx
      rcases hx with rfl | hx
      · have hyb : y ∈ before :=
          (diff_deleted_sublist key rest before).mem hy
        have hnone := List.find?_eq_none.mp hf y hyb
        simp only [beq_iff_eq] at hnone
        intro hxy
        exact hnone hxy.symm
      · exact diff_keys_disjoint key rest before hb ha' x hx y hy
    · have hany := find?_any key hf
      have hsub : List.Sublist ((before.eraseP (fun x => key x == key a)).map key)
          (before.map key) := (List.eraseP_sublist before).map key
      have hb' : ((before.eraseP (fun x => key x == key a)).map key).Nodup := hb.sublist hsub
      have hkey : key a ∉ (before.eraseP (fun x => key x == key a)).map key :=
        key_not_mem_eraseP key hb hany
      have hmain : ∀ x ∈ (diffMapsConsuming key (before.eraseP (fun x => key x == key a)) rest).added
          ++ ((diffMapsConsuming key (before.eraseP (fun x => key x == key a)) rest).changed.map Prod.snd
          ++ (diffMapsConsuming key (before.eraseP (fun x => key x == key a)) rest).unaffected),
          ∀ y ∈ (diffMapsConsuming key (before.eraseP (fun x => key x == key a)) rest).deleted,
            key x ≠ key y :=
        diff_keys_disjoint key rest _ hb' ha'
      have hay : ∀ y ∈ (diffMapsConsuming key (before.eraseP (fun x => key x == key a)) rest).deleted,
          key a ≠ key y := by
        intro y hy hxy
        have hyb : y ∈ before.eraseP (fun x => key x == key a) :=
          (diff_deleted_sublist key rest _).mem hy
        have hmem : key y ∈ (before.eraseP (fun x => key x == key a)).map key :=
          List.mem_map_of_mem key hyb
        rw [← hxy] at hmem
        exact hkey hmem
      by_cases hba : b = a
      · rw [diffMapsConsuming_cons_some_eq key rest hf hba]
        intro x hx y hy
        simp only [List.append_assoc, List.mem_append, List.mem_cons] at hx
        rcases hx with hx | hx | rfl | hx
        · exact hmain x (by simp [hx]) y hy
        · exact hmain x (by simp [hx]) y hy
        · exact hay y hy
        · exact hmain x (by simp [hx]) y hy
      · rw [diffMapsConsuming_cons_some_ne key rest hf hba]
        intro x hx y hy
        simp only [List.map_cons, List.append_assoc, List.mem_append, List.mem_cons] at hx
        rcases hx with hx | hx | hx
        · exact hmain x (by simp [hx]) y hy
        · rcases hx with rfl | hx
          · exact hay y hy
          · exact hmain x (by simp [hx]) y hy
        · exact hmain x (by simp [hx]) y hy

/-- Diffing a set against itself classifies everything `unaffected`. -/
lemma diffMapsConsuming_self (key : α → K) :
    ∀ l : List α, diffMapsConsuming key l l = ⟨[], [], [], l⟩
  | [] => by simp [diffMapsConsuming_nil]
  | a :: rest => by
    have hf : (a :: rest).find? (fun x => key x == key a) = some a :=
      List.find?_cons_of_pos _ (by simp)
    rw [diffMapsConsuming_cons_some_eq key rest hf rfl]
    have he : (a :: rest).eraseP (fun x => key x == key a) = rest := by
      simp [List.eraseP_cons]
    rw [he, diffMapsConsuming_self key rest]

lemma perm_any {l1 l2 : List α} (p : α → Bool) (h : List.Perm l1 l2) :
    l1.any p = l2.any p := by
  apply Bool.eq_iff_iff.mpr
  simp only [List.any_eq_true]
  exact ⟨fun ⟨x, hx, hp⟩ => ⟨x, h.mem_iff.mp hx, hp⟩, fun ⟨x, hx, hp⟩ => ⟨x, h.mem_iff.mpr hx, hp⟩⟩

lemma diffMapsConsuming_cons_some_added (key : α → K) {before : List α} {a b : α} (rest : List α)
    (h : before.find? (fun x => key x == key a) = some b) :
    (diffMapsConsuming key before (a :: rest)).added
      = (diffMapsConsuming key (before.eraseP (fun x => key x == key a)) rest).added := by
  by_cases hba : b = a
  · rw [diffMapsConsuming_cons_some_eq key rest h hba]
  · rw [diffMapsConsuming_cons_some_ne key rest h hba]

lemma diffMapsConsuming_cons_some_deleted (key : α → K) {before : List α} {a b : α} (rest : List α)
    (h : before.find? (fun x => key x == key a) = some b) :
    (diffMapsConsuming key before (a :: rest)).deleted
      = (diffMapsConsuming key (before.eraseP (fun x => key x == key a)) rest).deleted := by
  by_cases hba : b = a
  · rw [diffMapsConsuming_cons_some_eq key rest h hba]
  · rw [diffMapsConsuming_cons_some_ne key rest h hba]

lemma eraseP_eq_filter_of_nodup (key : α → K) (c : α) :
    ∀ {l : List α}, (l.map key).Nodup →
      l.eraseP (fun x => key x == key c) = l.filter (fun x => !(key x == key c))
  | [], _ => by simp
  | x :: xs, hnd => by
    rw [List.map_cons, List.nodup_cons] at hnd
    by_cases hx : key x == key c
    · have hxc : key x = key c := by simpa using hx
      have htail : xs.filter (fun y => !(key y == key c)) = xs := by
        rw [List.filter_eq_self]
        intro y hy
        have : key y ≠ key x := by
          intro h
          exact hnd.1 (h ▸ List.mem_map_of_mem key hy)
        simp [hxc ▸ this]
      simp [List.eraseP_cons, List.filter_cons, hx, htail]
    · have ih := eraseP_eq_filter_of_nodup key c hnd.2
      simp [List.eraseP_cons, List.filter_cons, hx, ih]

lemma any_key_eraseP (key : α → K) {before : List α} {a b : α} {x : α}
    (hf : before.find? (fun y => key y == key a) = some b) (hxa : key x ≠ key a) :
    (before.eraseP (fun y => key y == key a)).any (fun y => key y == key x)
      = before.any (fun y => key y == key x) := by
  have hperm : List.Perm before (b :: before.eraseP (fun y => key y == key a)) :=
    find?_perm_eraseP hf
  have hba : key b = key a := by
    have := List.find?_some hf
    simpa using this
  have h1 := perm_any (fun y => key y == key x) hperm
  rw [h1, List.any_cons]
  have : (key b == key x) = false := by
    simp only [beq_eq_false_iff_ne, ne_eq]
    rw [hba]
    exact fun h => hxa h.symm
  rw [this]
  simp

/-- The `added` records are exactly the after records whose identity is
absent from the before set, in order. -/
lemma diff_added_eq_filter (key : α → K) :
    ∀ (after before : List α), ((after.map key).Nodup) →
      (diffMapsConsuming key before after).added
        = after.filter (fun a => !(before.any (fun b => key b == key a)))
  | [], before, _ => by simp [diffMapsConsuming_nil]
  | a :: rest, before, ha => by
    rw [List.map_cons, List.nodup_cons] at ha
    have hrests : ∀ x ∈ rest, key x ≠ key a := by
      intro x hx h
      exact ha.1 (h ▸ List.mem_map_of_mem key hx)
    rcases hf : before.find? (fun b => key b == key a) with _ | b
    · have hnone : before.any (fun b => key b == key a) = false := by
        rw [List.any_eq_false]
        exact List.find?_eq_none.mp hf
      rw [diffMapsConsuming_cons_none key rest hf]
      simp only [List.filter_cons, hnone, Bool.not_false, if_pos]
      rw [diff_added_eq_filter key rest before ha.2]
    · have hsome : before.any (fun b => key b == key a) = true := find?_any key hf
      rw [diffMapsConsuming_cons_some_added key rest hf]
      simp only [List.filter_cons, hsome, Bool.not_true, Bool.false_eq_true, if_neg,
        not_false_eq_true]
      rw [diff_added_eq_filter key rest _ ha.2]
      apply List.filter_congr
      intro x hx
      rw [any_key_eraseP key hf (hrests x hx)]

/-- The `deleted` records are exactly the before records whose identity is
absent from the after set, in order. -/
lemma diff_deleted_eq_filter (key : α → K) :
    ∀ (after before : List α), ((before.map key).Nodup) →
      (diffMapsConsuming key before after).deleted
        = before.filter (fun b => !(after.any (fun a => key a == key b)))
  | [], before, _ => by
    rw [diffMapsConsuming_nil]
    have : before.filter (fun b => !(List.nil.any (fun a => key a == key b))) = before := by
      rw [List.filter_eq_self]
      intro y _
      simp
    rw [this]
  | a :: rest, before, hb => by
    rcases hf : before.find? (fun b => key b == key a) with _ | b
    · rw [diffMapsConsuming_cons_none key rest hf]
      rw [diff_deleted_eq_filter key rest before hb]
      apply List.filter_congr
      intro x hx
      have hxa : (key a == key x) = false := by
        have := List.find?_eq_none.mp hf x hx
        simp only [beq_iff_eq] at this
        simp only [beq_eq_false_iff_ne, ne_eq]
        exact fun h => this h.symm
      rw [List.any_cons, hxa]
      simp
    · have hba : key b = key a := by
        have := List.find?_some hf
        simpa using this
      rw [diffMapsConsuming_cons_some_deleted key rest hf]
      have hsub : List.Sublist ((before.eraseP (fun x => key x == key a)).map key)
          (before.map key) := (List.eraseP_sublist before).map key
      rw [diff_deleted_eq_filter key rest _ (hb.sublist hsub)]
      rw [eraseP_eq_filter_of_nodup key a hb, List.filter_filter]
      apply List.filter_congr
      intro x hx
      rw [List.any_cons]
      by_cases hxa : key x = key a
      · have h1 : (key x == key a) = true := by simpa using hxa
        have h2 : (key a == key x) = true := by simpa using hxa.symm
        simp [h1, h2]
      · have h1 : (key x == key a) = false := by simpa using hxa
        have h2 : (key a == key x) = false := by
          simp only [beq_eq_false_iff_ne, ne_eq]
          exact fun h => hxa h.symm
        simp [h1, h2]

/-- `added` of one direction is `deleted` of the other. -/
lemma diff_added_eq_swap_deleted (key : α → K) (B A : List α) (hA : (A.map key).Nodup) :
    (diffMapsConsuming key B A).added = (diffMapsConsuming key A B).deleted := by
  rw [diff_added_eq_filter key A B hA, diff_deleted_eq_filter key B A hA]

end DiffLemmas

/-! ### Index construction produces duplicate-free identities -/

section IndexLemmas

variable {α K : Type} [DecidableEq K]

lemma insertLWW_keys_nodup (key : α → K) {acc : List α} (x : α)
    (h : (acc.map key).Nodup) : ((insertLWW key acc x).map key).Nodup := by
  unfold insertLWW
  by_cases hmem : acc.any (fun y => key y == key x)
  · rw [if_pos hmem]
    have : (acc.map (fun y => if key y == key x then x else y)).map key = acc.map key := by
      rw [List.map_map]
      apply List.map_congr_left
      intro y _
      by_cases hy : key y == key x
      · have : key y = key x := by simpa using hy
        simp [Function.comp, hy, this]
      · simp [Function.comp, hy]
    rw [this]
    exact h
  · rw [if_neg hmem]
    rw [List.map_append]
    rw [List.nodup_append]
    refine ⟨h, List.nodup_singleton _, ?_⟩
    intro k hk
    simp only [List.map_cons, List.map_nil, List.mem_singleton]
    intro hkx
    subst hkx
    rcases List.mem_map.mp hk with ⟨y, hy, hky⟩
    apply hmem
    exact List.any_eq_true.mpr ⟨y, hy, by simp [hky]⟩

lemma foldl_insertLWW_keys_nodup (key : α → K) :
    ∀ (l acc : List α), (acc.map key).Nodup → ((List.foldl (insertLWW key) acc l).map key).Nodup
  | [], acc, h => h
  | x :: xs, acc, h => by
    rw [List.foldl_cons]
    exact foldl_insertLWW_keys_nodup key xs _ (insertLWW_keys_nodup key x h)

/-- The identity index never holds two records with the same identity. -/
lemma indexList_keys_nodup (key : α → K) (l : List α) :
    ((indexList key l).map key).Nodup :=
  foldl_insertLWW_keys_nodup key l [] (by simp)

end IndexLemmas


/-! ### Claim theorems about the diff engine -/

/-- The per-type partition property: the after set is exactly `added` +
`changed` (after components) + `unaffected`; the before set is exactly
`deleted` + `changed` (before components) + `unaffected`; and no identity
occurs twice across the four classifications. -/
def typePartitions {α K : Type} (key : α → K) (before after : List α)
    (added deleted : List α) (changed : List (α × α)) (unaffected : List α) : Prop :=
  List.Perm (added ++ (changed.map Prod.snd ++ unaffected)) after ∧
  List.Perm (deleted ++ (changed.map Prod.fst ++ unaffected)) before ∧
  (((added ++ (changed.map Prod.snd ++ unaffected)) ++ deleted).map key).Nodup

lemma diffMaps_typePartitions {α K : Type} [DecidableEq α] [DecidableEq K]
    (key : α → K) (before after : List α)
    (hb : (before.map key).Nodup) (ha : (after.map key).Nodup) :
    typePartitions key before after
      (diffMapsConsuming key before after).added
      (diffMapsConsuming key before after).deleted
      (diffMapsConsuming key before after).changed
      (diffMapsConsuming key before after).unaffected := by
  refine ⟨diff_perm_after key after before, diff_perm_before key after before, ?_⟩
  rw [List.map_append, List.nodup_append]
  refine ⟨?_, ?_, ?_⟩
  · exact (((diff_perm_after key after before).map key).nodup_iff).mpr ha
  · have hnd := (((diff_perm_before key after before).map key).nodup_iff).mpr hb
    rw [List.map_append] at hnd
    exact (List.nodup_append.mp hnd).1
  · intro k hk1 hk2
    rcases List.mem_map.mp hk1 with ⟨x, hx, rfl⟩
    rcases List.mem_map.mp hk2 with ⟨y, hy, hky⟩
    exact diff_keys_disjoint key after before hb ha x hx y hy hky.symm

/-- **C1**: for every pair of before/after definitions and every resource
type, the per-type diff classifies each after resource into exactly one of
added/changed/unaffected, each before resource into exactly one of
deleted/changed/unaffected, and the four classifications partition the
union of identities of both sets. -/
theorem diff_classification_partitions (X Y : Definitions) :
    typePartitions Vhost.key (Index.fromDefinitions X).vhosts (Index.fromDefinitions Y).vhosts
      (diff X Y).added.vhosts (diff X Y).deleted.vhosts (diff X Y).changed.vhosts
      (diff X Y).unaffected.vhosts
    ∧ typePartitions User.key (Index.fromDefinitions X).users (Index.fromDefinitions Y).users
      (diff X Y).added.users (diff X Y).deleted.users (diff X Y).changed.users
      (diff X Y).unaffected.users
    ∧ typePartitions Queue.key (Index.fromDefinitions X).queues (Index.fromDefinitions Y).queues
      (diff X Y).added.queues (diff X Y).deleted.queues (diff X Y).changed.queues
      (diff X Y).unaffected.queues
    ∧ typePartitions Exchange.key (Index.fromDefinitions X).exchanges
      (Index.fromDefinitions Y).exchanges
      (diff X Y).added.exchanges (diff X Y).deleted.exchanges (diff X Y).changed.exchanges
      (diff X Y).unaffected.exchanges
    ∧ typePartitions Binding.key (Index.fromDefinitions X).bindings
      (Index.fromDefinitions Y).bindings
      (diff X Y).added.bindings (diff X Y).deleted.bindings (diff X Y).changed.bindings
      (diff X Y).unaffected.bindings
    ∧ typePartitions Permission.key (Index.fromDefinitions X).permissions
      (Index.fromDefinitions Y).permissions
      (diff X Y).added.permissions (diff X Y).deleted.permissions (diff X Y).changed.permissions
      (diff X Y).unaffected.permissions
    ∧ typePartitions Permission.key (Index.fromDefinitions X).topic_permissions
      (Index.fromDefinitions Y).topic_permissions
      (diff X Y).added.topic_permissions (diff X Y).deleted.topic_permissions
      (diff X Y).changed.topic_permissions (diff X Y).unaffected.topic_permissions := by
  refine ⟨?_, ?_, ?_, ?_, ?_, ?_, ?_⟩ <;>
    exact diffMaps_typePartitions _ _ _ (indexList_keys_nodup _ _) (indexList_keys_nodup _ _)

/-- **C3**: `diff(X, Y).added` holds exactly the records of
`diff(Y, X).deleted` and vice versa, for every resource type. -/
theorem diff_added_deleted_swap (X Y : Definitions) :
    ((diff X Y).added.vhosts = (diff Y X).deleted.vhosts
      ∧ (diff X Y).deleted.vhosts = (diff Y X).added.vhosts)
    ∧ ((diff X Y).added.users = (diff Y X).deleted.users
      ∧ (diff X Y).deleted.users = (diff Y X).added.users)
    ∧ ((diff X Y).added.queues = (diff Y X).deleted.queues
      ∧ (diff X Y).deleted.queues = (diff Y X).added.queues)
    ∧ ((diff X Y).added.exchanges = (diff Y X).deleted.exchanges
      ∧ (diff X Y).deleted.exchanges = (diff Y X).added.exchanges)
    ∧ ((diff X Y).added.bindings = (diff Y X).deleted.bindings
      ∧ (diff X Y).deleted.bindings = (diff Y X).added.bindings)
    ∧ ((diff X Y).added.permissions = (diff Y X).deleted.permissions
      ∧ (diff X Y).deleted.permissions = (diff Y X).added.permissions)
    ∧ ((diff X Y).added.topic_permissions = (diff Y X).deleted.topic_permissions
      ∧ (diff X Y).deleted.topic_permissions = (diff Y X).added.topic_permissions) := by
  refine ⟨⟨?_, ?_⟩, ⟨?_, ?_⟩, ⟨?_, ?_⟩, ⟨?_, ?_⟩, ⟨?_, ?_⟩, ⟨?_, ?_⟩, ⟨?_, ?_⟩⟩ <;>
    first
      | exact diff_added_eq_swap_deleted _ _ _ (indexList_keys_nodup _ _)
      | exact (diff_added_eq_swap_deleted _ _ _ (indexList_keys_nodup _ _)).symm


lemma bindingImplicitlyAffected_nil (b : Binding) :
    bindingImplicitlyAffected [] [] b = false := by
  unfold bindingImplicitlyAffected
  simp

lemma filter_bindingImplicitlyAffected_nil (l : List Binding) :
    l.filter (bindingImplicitlyAffected [] []) = [] := by
  rw [List.filter_eq_nil_iff]
  intro b _
  simp [bindingImplicitlyAffected_nil]

/-- **C2**: diffing a snapshot against itself yields empty `added`,
`deleted`, `changed` and implicitly-affected sets, and classifies every
indexed resource as `unaffected`. -/
theorem diff_self_all_unaffected (X : Definitions) :
    diff X X =
      { added := {}, deleted := {}, changed := {},
        unaffected :=
          { vhosts := (Index.fromDefinitions X).vhosts,
            users := (Index.fromDefinitions X).users,
            queues := (Index.fromDefinitions X).queues,
            exchanges := (Index.fromDefinitions X).exchanges,
            bindings := (Index.fromDefinitions X).bindings,
            permissions := (Index.fromDefinitions X).permissions,
            topic_permissions := (Index.fromDefinitions X).topic_permissions },
        implicitlyAffected := [] } := by
  unfold diff
  simp only [diffMapsConsuming_self, filter_bindingImplicitlyAffected_nil]


lemma bindingImplicitlyAffected_eq (ce : List (Exchange × Exchange))
    (cq : List (Queue × Queue)) (b : Binding) :
    bindingImplicitlyAffected ce cq b =
      (ce.any (fun p =>
          p.1.vhost == b.vhost &&
            (p.1.name == b.source ||
              (b.destination_type == "exchange" && p.1.name == b.destination)))
        || (b.destination_type == "queue"
            && cq.any (fun p =>
              p.1.vhost == b.vhost && (p.1.name == b.destination && b.destination_type == "queue")))) := by
  unfold bindingImplicitlyAffected
  by_cases h1 : ce.any (fun p =>
      p.1.vhost == b.vhost &&
        (p.1.name == b.source ||
          (b.destination_type == "exchange" && p.1.name == b.destination)))
  · rw [if_pos h1, h1]
    simp
  · rw [if_neg h1]
    rw [Bool.eq_false_iff.mpr h1]
    by_cases h2 : b.destination_type = "queue"
    · have hbne : (b.destination_type != "queue") = false := by simp [h2]
      have hbeq : (b.destination_type == "queue") = true := by simp [h2]
      rw [hbne, hbeq]
      simp
    · have hbne : (b.destination_type != "queue") = true := by simp [h2]
      have hbeq : (b.destination_type == "queue") = false := by simp [h2]
      rw [hbne, hbeq]
      simp

lemma bindingImplicitlyAffected_iff (ce : List (Exchange × Exchange))
    (cq : List (Queue × Queue)) (b : Binding) :
    bindingImplicitlyAffected ce cq b = true ↔
      ((∃ p ∈ ce, p.1.vhost = b.vhost ∧
          (p.1.name = b.source ∨ (b.destination_type = "exchange" ∧ p.1.name = b.destination)))
        ∨ (b.destination_type = "queue" ∧
            ∃ p ∈ cq, p.1.vhost = b.vhost ∧ p.1.name = b.destination)) := by
  rw [bindingImplicitlyAffected_eq]
  simp only [Bool.or_eq_true, Bool.and_eq_true, List.any_eq_true, beq_iff_eq]
  constructor
  · rintro (h | ⟨hq, p, hp, hv, hn, -⟩)
    · exact Or.inl h
    · exact Or.inr ⟨hq, p, hp, hv, hn⟩
  · rintro (h | ⟨hq, p, hp, hv, hn⟩)
    · exact Or.inl h
    · exact Or.inr ⟨hq, p, hp, hv, hn, hq⟩

/-- **C4**: a binding classified `unaffected` is in
`implicitlyAffected.bindings` exactly when a changed exchange (before
record) of its vhost is its source or, for destination type `exchange`,
its destination, or when its destination type is `queue` and a changed
queue (before record) of its vhost is its destination. -/
theorem implicitly_affected_iff (X Y : Definitions) (b : Binding)
    (hb : b ∈ (diff X Y).unaffected.bindings) :
    b ∈ (diff X Y).implicitlyAffected ↔
      ((∃ p ∈ (diff X Y).changed.exchanges, p.1.vhost = b.vhost ∧
          (p.1.name = b.source ∨ (b.destination_type = "exchange" ∧ p.1.name = b.destination)))
        ∨ (b.destination_type = "queue" ∧
            ∃ p ∈ (diff X Y).changed.queues, p.1.vhost = b.vhost ∧ p.1.name = b.destination)) := by
  have hmem : b ∈ (diff X Y).implicitlyAffected ↔
      b ∈ (diff X Y).unaffected.bindings ∧
        bindingImplicitlyAffected (diff X Y).changed.exchanges (diff X Y).changed.queues b
          = true :=
    List.mem_filter
  rw [hmem]
  rw [bindingImplicitlyAffected_iff]
  simp [hb]

/-- Witness for `implicitly_affected_iff`: the spec's own concrete
scenario, a changed exchange with a textually identical binding. -/
theorem implicitly_affected_iff_witness :
    (⟨"/", "ex1", "q1", "queue", "rk", "", ""⟩ : Binding) ∈
        (diff
          { exchanges := [⟨"/", "ex1", "durable"⟩],
            bindings := [⟨"/", "ex1", "q1", "queue", "rk", "", ""⟩] }
          { exchanges := [⟨"/", "ex1", ""⟩],
            bindings := [⟨"/", "ex1", "q1", "queue", "rk", "", ""⟩] }).unaffected.bindings
      ∧ (⟨"/", "ex1", "q1", "queue", "rk", "", ""⟩ : Binding) ∈
        (diff
          { exchanges := [⟨"/", "ex1", "durable"⟩],
            bindings := [⟨"/", "ex1", "q1", "queue", "rk", "", ""⟩] }
          { exchanges := [⟨"/", "ex1", ""⟩],
            bindings := [⟨"/", "ex1", "q1", "queue", "rk", "", ""⟩] }).implicitlyAffected := by
  refine ⟨by decide, ?_⟩
  rw [implicitly_affected_iff _ _ _ (by decide)]
  decide

/-- **C10**: `implicitlyAffected.bindings` is a sub-sequence of the
unaffected bindings; no added, deleted or changed binding record appears
in it. -/
theorem implicitly_affected_subseq_unaffected (X Y : Definitions) :
    List.Sublist (diff X Y).implicitlyAffected (diff X Y).unaffected.bindings
    ∧ ∀ b ∈ (diff X Y).implicitlyAffected,
        b ∉ (diff X Y).added.bindings
        ∧ b ∉ (diff X Y).deleted.bindings
        ∧ ∀ p ∈ (diff X Y).changed.bindings, p.1 ≠ b ∧ p.2 ≠ b := by
  have hsub : List.Sublist (diff X Y).implicitlyAffected (diff X Y).unaffected.bindings :=
    List.filter_sublist _
  refine ⟨hsub, ?_⟩
  intro b hbi
  have hb : b ∈ (diff X Y).unaffected.bindings := hsub.mem hbi
  have hpart := (diff_classification_partitions X Y).2.2.2.2.1
  rcases hpart with ⟨hafter, hbefore, hnd⟩
  rw [List.map_append, List.nodup_append] at hnd
  have hndA := hnd.1
  rw [List.map_append, List.nodup_append] at hndA
  have hndA2 := (hndA.2.1 : ((((diff X Y).changed.bindings.map Prod.snd)
      ++ (diff X Y).unaffected.bindings).map Binding.key).Nodup)
  rw [List.map_append, List.nodup_append] at hndA2
  refine ⟨?_, ?_, ?_⟩
  · intro hadd
    exact hndA.2.2 (List.mem_map_of_mem Binding.key hadd)
      (by
        rw [List.map_append, List.mem_append]
        exact Or.inr (List.mem_map_of_mem Binding.key hb))
  · intro hdel
    exact hnd.2.2
      (by
        rw [List.map_append, List.mem_append]
        exact Or.inr (by
          rw [List.map_append, List.mem_append]
          exact Or.inr (List.mem_map_of_mem Binding.key hb)))
      (List.mem_map_of_mem Binding.key hdel)
  · intro p hp
    have hkeys : Binding.key p.1 = Binding.key p.2 :=
      diff_changed_key Binding.key _ _ p hp
    have hm2 : Binding.key b ∈ ((diff X Y).unaffected.bindings).map Binding.key :=
      List.mem_map_of_mem Binding.key hb
    constructor
    · intro h1
      have hm1 := List.mem_map_of_mem Binding.key (List.mem_map_of_mem Prod.snd hp)
      rw [← hkeys, h1] at hm1
      exact hndA2.2.2 hm1 hm2
    · intro h2
      have hm1 := List.mem_map_of_mem Binding.key (List.mem_map_of_mem Prod.snd hp)
      rw [h2] at hm1
      exact hndA2.2.2 hm1 hm2

/-- Witness for `implicitly_affected_subseq_unaffected` at a concrete
diff with an implicitly affected binding. -/
theorem implicitly_affected_subseq_unaffected_witness :
    ∃ b, b ∈ (diff
          { exchanges := [⟨"/", "ex1", "durable"⟩],
            bindings := [⟨"/", "ex1", "q1", "queue", "rk", "", ""⟩] }
          { exchanges := [⟨"/", "ex1", ""⟩],
            bindings := [⟨"/", "ex1", "q1", "queue", "rk", "", ""⟩] }).implicitlyAffected
      ∧ b ∉ (diff
          { exchanges := [⟨"/", "ex1", "durable"⟩],
            bindings := [⟨"/", "ex1", "q1", "queue", "rk", "", ""⟩] }
          { exchanges := [⟨"/", "ex1", ""⟩],
            bindings := [⟨"/", "ex1", "q1", "queue", "rk", "", ""⟩] }).added.bindings := by
  refine ⟨⟨"/", "ex1", "q1", "queue", "rk", "", ""⟩, by decide, ?_⟩
  exact ((implicitly_affected_subseq_unaffected _ _).2 _ (by decide)).1


/-! ### The deployment planner (`src/deploy.js`)

`deploy` consumes the change sets produced by `diffServer` (the diff of
the live server definitions against the desired ones) together with the
policy flags, and dispatches batches of remote calls.  The embedding
takes the change sets (`DiffOutput`) as input and abstracts the
transport as a response oracle `respond : Call → Bool` (`true` means the
HTTP call fulfils, `false` that it rejects); calls are recorded in
dispatch order. -/

/-- Hexadecimal digit (uppercase), for percent-encoding. -/
def hexChar (n : Nat) : Char :=
  if n < 10 then Char.ofNat (48 + n) else Char.ofNat (55 + n)

/-- `%XX` escape of one UTF-8 byte. -/
def percentEncodeByte (n : Nat) : String :=
  String.mk ['%', hexChar (n / 16), hexChar (n % 16)]

/-- The UTF-8 bytes of one character. -/
def charUtf8Bytes (c : Char) : List Nat :=
  let n := c.toNat
  if n < 0x80 then [n]
  else if n < 0x800 then [0xC0 + n / 0x40, 0x80 + n % 0x40]
  else if n < 0x10000 then
    [0xE0 + n / 0x1000, 0x80 + (n / 0x40) % 0x40, 0x80 + n % 0x40]
  else
    [0xF0 + n / 0x40000, 0x80 + (n / 0x1000) % 0x40, 0x80 + (n / 0x40) % 0x40, 0x80 + n % 0x40]

/-- The characters `encodeURIComponent` leaves unescaped: alphanumerics
and `-_.!~*'()` (39 is the apostrophe). -/
def uriUnreserved (c : Char) : Bool :=
  c.isAlphanum || "-_.!~*()".contains c || c.toNat == 39

/-- JS `encodeURIComponent` on one character. -/
def encodeChar (c : Char) : String :=
  if uriUnreserved c then String.singleton c
  else String.join ((charUtf8Bytes c).map percentEncodeByte)

/-- JS `encodeURIComponent`, applied by the `url` template helper of
`src/deploy.js` (lines 7-11) to every interpolated value. -/
def encodeURIComponent (s : String) : String :=
  String.join (s.toList.map encodeChar)

/-- A resource record tagged by its type, as carried through
`deployResources` (the JS passes the raw record object). -/
inductive Resource where
  | vhost (r : Vhost)
  | user (r : User)
  | queue (r : Queue)
  | exchange (r : Exchange)
  | binding (r : Binding)
  | permission (r : Permission)
  | topicPermission (r : Permission)
deriving DecidableEq, Repr

/-- The `T` lookup of `src/deploy.js` (lines 13-16): the path letter for
a binding destination type; an unmapped type renders as the string
`undefined`, as interpolating JS `undefined` does. -/
def destTypeChar (dt : String) : String :=
  if dt == "exchange" then "e" else if dt == "queue" then "q" else "undefined"

/-- One remote call handed to the transport: method, percent-encoded
path, and the record sent as body. -/
structure Call where
  method : String
  path : String
  body : Resource
deriving DecidableEq, Repr

/-- The `C` dispatch table of `src/deploy.js` (lines 17-42), mapping an
operation and resource type to the HTTP method and URL; `none` where the
table has no entry (`typeof C[op][type] !== 'function'`). -/
def C_table (op rtype : String) (r : Resource) : Option (String × String) :=
  match op, rtype, r with
  | "added", "vhosts", .vhost v => some ("PUT", "/api/vhosts/" ++ encodeURIComponent v.name)
  | "added", "users", .user u => some ("PUT", "/api/users/" ++ encodeURIComponent u.name)
  | "added", "queues", .queue q =>
    some ("PUT", "/api/queues/" ++ encodeURIComponent q.vhost ++ "/" ++ encodeURIComponent q.name)
  | "added", "exchanges", .exchange e =>
    some ("PUT", "/api/exchanges/" ++ encodeURIComponent e.vhost ++ "/"
      ++ encodeURIComponent e.name)
  | "added", "bindings", .binding b =>
    some ("POST", "/api/bindings/" ++ encodeURIComponent b.vhost ++ "/e/"
      ++ encodeURIComponent b.source ++ "/" ++ encodeURIComponent (destTypeChar b.destination_type)
      ++ "/" ++ encodeURIComponent b.destination)
  | "added", "permissions", .permission p =>
    some ("PUT", "/api/permissions/" ++ encodeURIComponent p.vhost ++ "/"
      ++ encodeURIComponent p.user)
  | "added", "topic_permissions", .topicPermission p =>
    some ("PUT", "/api/topic-permissions/" ++ encodeURIComponent p.vhost ++ "/"
      ++ encodeURIComponent p.user)
  | "deleted", "vhosts", .vhost v => some ("DELETE", "/api/vhosts/" ++ encodeURIComponent v.name)
  | "deleted", "users", .user u => some ("DELETE", "/api/users/" ++ encodeURIComponent u.name)
  | "deleted", "queues", .queue q =>
    some ("DELETE", "/api/queues/" ++ encodeURIComponent q.vhost ++ "/"
      ++ encodeURIComponent q.name)
  | "deleted", "exchanges", .exchange e =>
    some ("DELETE", "/api/exchanges/" ++ encodeURIComponent e.vhost ++ "/"
      ++ encodeURIComponent e.name)
  | "deleted", "bindings", .binding b =>
    some ("DELETE", "/api/bindings/" ++ encodeURIComponent b.vhost ++ "/e/"
      ++ encodeURIComponent b.source ++ "/" ++ encodeURIComponent (destTypeChar b.destination_type)
      ++ "/" ++ encodeURIComponent b.destination ++ "/"
      ++ encodeURIComponent (if b.properties_key == "" then "~" else b.properties_key))
  | "deleted", "permissions", .permission p =>
    some ("DELETE", "/api/permissions/" ++ encodeURIComponent p.vhost ++ "/"
      ++ encodeURIComponent p.user)
  | "deleted", "topic_permissions", .topicPermission p =>
    some ("DELETE", "/api/topic-permissions/" ++ encodeURIComponent p.vhost ++ "/"
      ++ encodeURIComponent p.user)
  | "changed", "vhosts", .vhost v => some ("PUT", "/api/vhosts/" ++ encodeURIComponent v.name)
  | "changed", "users", .user u => some ("PUT", "/api/users/" ++ encodeURIComponent u.name)
  | "changed", "permissions", .permission p =>
    some ("PUT", "/api/permissions/" ++ encodeURIComponent p.vhost ++ "/"
      ++ encodeURIComponent p.user)
  | "changed", "topic_permissions", .topicPermission p =>
    some ("PUT", "/api/topic-permissions/" ++ encodeURIComponent p.vhost ++ "/"
      ++ encodeURIComponent p.user)
  | _, _, _ => none

/-- One element of `changes[operation][type]`: a plain record, or a
before/after pair for the `changed` operation. -/
inductive Entry where
  | plain (r : Resource)
  | pair (before after : Resource)
deriving DecidableEq, Repr

/-- `resource.after || resource` (`src/deploy.js` line 65): the record a
call is built from and sent with. -/
def Entry.effective : Entry → Resource
  | .plain r => r
  | .pair _ a => a

/-- Reading the `vhost` property of a record, `none` when the record
shape has no such field (JS `undefined`): vhost and user records only
carry `name`. -/
def Resource.vhostProp : Resource → Option String
  | .vhost _ => none
  | .user _ => none
  | .queue r => some r.vhost
  | .exchange r => some r.vhost
  | .binding r => some r.vhost
  | .permission r => some r.vhost
  | .topicPermission r => some r.vhost

/-- The `vhost` property of the raw element the filter predicate
receives (a `{before, after}` pair has no `vhost` property). -/
def Entry.vhostProp : Entry → Option String
  | .plain r => r.vhostProp
  | .pair _ _ => none

/-- `changes[operation][type]` for the operation/type pairs `deploy`
uses. -/
def getEntries (ch : DiffOutput) (op rtype : String) : List Entry :=
  match op, rtype with
  | "added", "vhosts" => ch.added.vhosts.map (fun r => .plain (.vhost r))
  | "added", "users" => ch.added.users.map (fun r => .plain (.user r))
  | "added", "queues" => ch.added.queues.map (fun r => .plain (.queue r))
  | "added", "exchanges" => ch.added.exchanges.map (fun r => .plain (.exchange r))
  | "added", "bindings" => ch.added.bindings.map (fun r => .plain (.binding r))
  | "added", "permissions" => ch.added.permissions.map (fun r => .plain (.permission r))
  | "added", "topic_permissions" =>
    ch.added.topic_permissions.map (fun r => .plain (.topicPermission r))
  | "deleted", "vhosts" => ch.deleted.vhosts.map (fun r => .plain (.vhost r))
  | "deleted", "users" => ch.deleted.users.map (fun r => .plain (.user r))
  | "deleted", "queues" => ch.deleted.queues.map (fun r => .plain (.queue r))
  | "deleted", "exchanges" => ch.deleted.exchanges.map (fun r => .plain (.exchange r))
  | "deleted", "bindings" => ch.deleted.bindings.map (fun r => .plain (.binding r))
  | "deleted", "permissions" => ch.deleted.permissions.map (fun r => .plain (.permission r))
  | "deleted", "topic_permissions" =>
    ch.deleted.topic_permissions.map (fun r => .plain (.topicPermission r))
  | "changed", "vhosts" => ch.changed.vhosts.map (fun p => .pair (.vhost p.1) (.vhost p.2))
  | "changed", "users" => ch.changed.users.map (fun p => .pair (.user p.1) (.user p.2))
  | "changed", "queues" => ch.changed.queues.map (fun p => .pair (.queue p.1) (.queue p.2))
  | "changed", "exchanges" =>
    ch.changed.exchanges.map (fun p => .pair (.exchange p.1) (.exchange p.2))
  | "changed", "bindings" =>
    ch.changed.bindings.map (fun p => .pair (.binding p.1) (.binding p.2))
  | "changed", "permissions" =>
    ch.changed.permissions.map (fun p => .pair (.permission p.1) (.permission p.2))
  | "changed", "topic_permissions" =>
    ch.changed.topic_permissions.map (fun p => .pair (.topicPermission p.1) (.topicPermission p.2))
  | "implicitlyAffected", "bindings" =>
    ch.implicitlyAffected.map (fun r => .plain (.binding r))
  | _, _ => []

/-- The `notInDeletedVhost` filter of `src/deploy.js` (lines 153-155),
embedded exactly as written: when vhosts are being deleted, the filter
keeps an entry when `find` locates a deleted vhost record whose `vhost`
property equals the entry record's `vhost` property.  Deleted vhost
records carry only `name`, so their `vhost` property is `none`
(undefined); the comparison is therefore `none == entry.vhostProp`. -/
def notInDeletedVhost (deletedVhosts : List Vhost) (e : Entry) : Bool :=
  if deletedVhosts.length != 0 then
    deletedVhosts.any (fun dv => e.vhostProp == (Resource.vhost dv).vhostProp)
  else true

/-- One batch of the deployment plan: the arguments of one
`deployResources` call. -/
structure BatchSpec where
  operation : String
  rtype : String
  override : Option String := none
  vhostFilter : Bool := false
deriving DecidableEq, Repr

/-- The per-record filter predicate of a batch (`filterFn`), `true` when
the entry is eligible. -/
def passPred (ch : DiffOutput) (spec : BatchSpec) (e : Entry) : Bool :=
  if spec.vhostFilter then notInDeletedVhost ch.deleted.vhosts e else true

/-- The call built for one eligible entry, when the dispatch table knows
the operation/type combination. -/
def mkCall (op rtype : String) (e : Entry) : Option Call :=
  match C_table op rtype e.effective with
  | some mu => some ⟨mu.1, mu.2, e.effective⟩
  | none => none

/-- The settlement of one mapped promise of `Promise.allSettled`:
fulfilled, rejected by the transport, or rejected by the
`Invalid operation` guard before any call is issued. -/
inductive Settle where
  | ok (c : Call)
  | rejected (c : Call)
  | invalidOp (op rtype : String)
deriving DecidableEq, Repr

def Settle.isFail : Settle → Bool
  | .ok _ => false
  | _ => true

/-- The call a settlement dispatched, if any. -/
def Settle.call? : Settle → Option Call
  | .ok c => some c
  | .rejected c => some c
  | .invalidOp _ _ => none

/-- Settlement of one eligible entry against the response oracle. -/
def runEntry (respond : Call → Bool) (op rtype : String) (e : Entry) : Settle :=
  match mkCall op rtype e with
  | some c => if respond c then .ok c else .rejected c
  | none => .invalidOp op rtype

/-- The outcome of one `deployResources` batch. -/
structure BatchOut where
  calls : List Call
  succeeded : Nat
  failed : Nat
  skippedCount : Nat
  err : Option Settle
deriving DecidableEq, Repr

/-- `deployResources` of `src/deploy.js` (lines 48-97): filter the
entries (collecting skipped ones), settle every eligible entry, count
fulfilled and rejected settlements, and fail with the first rejected
settlement's reason when any rejected. -/
def deployResources (respond : Call → Bool) (ch : DiffOutput) (spec : BatchSpec) : BatchOut :=
  let entries := getEntries ch spec.operation spec.rtype
  if entries.length = 0 then ⟨[], 0, 0, 0, none⟩
  else
    let eligible := entries.filter (passPred ch spec)
    let op := spec.override.getD spec.operation
    let settles := eligible.map (runEntry respond op spec.rtype)
    { calls := settles.filterMap Settle.call?
      succeeded := (settles.filter (fun s => !s.isFail)).length
      failed := (settles.filter Settle.isFail).length
      skippedCount := entries.length - eligible.length
      err := (settles.filter Settle.isFail).head? }


/-- A fatal deployment error: the option-conflict check, or the first
failure's reason re-raised by a batch. -/
inductive DeployErr where
  | optionConflict
  | batchFailure (s : Settle)
deriving DecidableEq, Repr

/-- The advisory warnings `deploy` prints (`console.warn`). -/
inductive Warning where
  | dryRunOn
  | vhostsLackPermissions
  | ignoringChanged (count : Nat)
  | ignoredDeleted (count : Nat)
deriving DecidableEq, Repr

/-- The policy flags of `deploy` (`src/deploy.js` line 99).  `ignoreList`
is omitted: it only feeds `diffServer`, whose result is this embedding's
input. -/
structure DeployOpts where
  dryRun : Bool := false
  noDeletions : Bool := false
  recreateChanged : Bool := false
deriving DecidableEq, Repr

/-- The observable outcome of a `deploy` run: warnings printed, remote
calls dispatched in order, and the fatal error, if any. -/
structure DeployOut where
  warnings : List Warning
  calls : List Call
  err : Option DeployErr
deriving DecidableEq, Repr

/-- One `await deployResources(...)` in sequence: a batch only runs when
no earlier batch raised. -/
def step (respond : Call → Bool) (ch : DiffOutput) (st : DeployOut) (spec : BatchSpec) :
    DeployOut :=
  match st.err with
  | some _ => st
  | none =>
    let b := deployResources respond ch spec
    { st with calls := st.calls ++ b.calls, err := b.err.map DeployErr.batchFailure }

/-- `changedResourceCount` (`src/deploy.js` lines 106-108): the changed
entries of every type except the `mutableResources`
(users/permissions/topic_permissions) — so changed vhosts are counted. -/
def changedResourceCount (c : ChangedMap) : Nat :=
  c.vhosts.length + c.queues.length + c.exchanges.length + c.bindings.length

/-- `deletedResourceCount` (`src/deploy.js` lines 150-151): all deleted
entries of every type. -/
def deletedResourceCount (c : ChangeMap) : Nat :=
  c.vhosts.length + c.users.length + c.queues.length + c.exchanges.length
    + c.bindings.length + c.permissions.length + c.topic_permissions.length

/-- The ordered batches `deploy` runs (`src/deploy.js` lines 126-162):
additions (vhosts, users, exchanges, queues), in-place changes (vhosts,
users), the recreate-changed block when enabled, the remaining additions
and permission changes, and the deletion phase (reverse dependency
order, with the vhost filter on permission and user deletes) unless
`noDeletions`. -/
def batchList (opts : DeployOpts) : List BatchSpec :=
  [⟨"added", "vhosts", none, false⟩,
   ⟨"added", "users", none, false⟩,
   ⟨"added", "exchanges", none, false⟩,
   ⟨"added", "queues", none, false⟩,
   ⟨"changed", "vhosts", none, false⟩,
   ⟨"changed", "users", none, false⟩]
  ++ (if opts.recreateChanged then
    [⟨"changed", "exchanges", some "deleted", false⟩,
     ⟨"changed", "exchanges", some "added", false⟩,
     ⟨"changed", "queues", some "deleted", false⟩,
     ⟨"changed", "queues", some "added", false⟩,
     ⟨"changed", "bindings", some "deleted", false⟩,
     ⟨"changed", "bindings", some "added", false⟩,
     ⟨"implicitlyAffected", "bindings", some "added", false⟩]
  else [])
  ++ [⟨"added", "bindings", none, false⟩,
      ⟨"added", "permissions", none, false⟩,
      ⟨"added", "topic_permissions", none, false⟩,
      ⟨"changed", "permissions", none, false⟩,
      ⟨"changed", "topic_permissions", none, false⟩]
  ++ (if opts.noDeletions then []
  else
    [⟨"deleted", "topic_permissions", none, false⟩,
     ⟨"deleted", "permissions", none, true⟩,
     ⟨"deleted", "users", none, true⟩,
     ⟨"deleted", "bindings", none, false⟩,
     ⟨"deleted", "queues", none, false⟩,
     ⟨"deleted", "exchanges", none, false⟩,
     ⟨"deleted", "vhosts", none, false⟩])

/-- `deploy` of `src/deploy.js` (lines 99-168): warn about dry run and
about added vhosts lacking added permissions, raise on the
`noDeletions`/`recreateChanged` conflict before any batch, warn about
silently skipped changed resources, run the batches in order stopping at
the first batch failure, and finally warn about ignored deletions under
`noDeletions`. -/
def deploy (respond : Call → Bool) (changes : DiffOutput) (opts : DeployOpts) : DeployOut :=
  let w0 : List Warning := if opts.dryRun then [.dryRunOn] else []
  let hasAddedPermissionsForVhosts :=
    changes.added.vhosts.all (fun v =>
      !(changes.added.permissions.any (fun p => p.vhost == v.name)))
  let w1 :=
    if changes.added.vhosts.length != 0 && hasAddedPermissionsForVhosts then
      w0 ++ [.vhostsLackPermissions]
    else w0
  if opts.noDeletions && opts.recreateChanged then
    { warnings := w1, calls := [], err := some .optionConflict }
  else
    let cnt := changedResourceCount changes.changed
    let w2 := if cnt != 0 && !opts.recreateChanged then w1 ++ [.ignoringChanged cnt] else w1
    let st := (batchList opts).foldl (step respond changes)
      { warnings := w2, calls := [], err := none }
    let dcnt := deletedResourceCount changes.deleted
    match st.err with
    | some _ => st
    | none =>
      if opts.noDeletions && dcnt != 0 then
        { st with warnings := st.warnings ++ [.ignoredDeleted dcnt] }
      else st


/-! ### Claim theorems about the deployment planner -/

/-- **C6**: with both `noDeletions` and `recreateChanged` set, `deploy`
raises the option-conflict error and dispatches no remote call of any
deployment phase. -/
theorem deploy_option_conflict (respond : Call → Bool) (changes : DiffOutput)
    (opts : DeployOpts) (h1 : opts.noDeletions = true) (h2 : opts.recreateChanged = true) :
    (deploy respond changes opts).calls = []
    ∧ (deploy respond changes opts).err = some DeployErr.optionConflict := by
  unfold deploy
  simp [h1, h2]

/-- Witness for `deploy_option_conflict` at a concrete plan. -/
theorem deploy_option_conflict_witness :
    (deploy (fun _ => true)
        { added := { vhosts := [⟨"v1", ""⟩] }, deleted := {}, changed := {},
          unaffected := {}, implicitlyAffected := [] }
        { noDeletions := true, recreateChanged := true }).calls = []
    ∧ (deploy (fun _ => true)
        { added := { vhosts := [⟨"v1", ""⟩] }, deleted := {}, changed := {},
          unaffected := {}, implicitlyAffected := [] }
        { noDeletions := true, recreateChanged := true }).err
      = some DeployErr.optionConflict :=
  deploy_option_conflict _ _ _ rfl rfl

/-- **C5** (failing run): a plan deleting vhost `dead` and the permission
of `alice` on the distinct, not-deleted vhost `other`.  The claim (and
spec) require the permission delete for `other` to be issued; the code
dispatches only the vhost delete, because `notInDeletedVhost` compares
the permission's `vhost` with the deleted vhost record's nonexistent
`vhost` property and keeps only the (never occurring) matches. -/
theorem deleted_vhost_suppresses_unrelated_permission_delete :
    (deploy (fun _ => true)
        { added := {}, changed := {}, unaffected := {}, implicitlyAffected := [],
          deleted := { vhosts := [⟨"dead", ""⟩],
                       permissions := [⟨"other", "alice", ""⟩] } }
        {}).calls
      = [⟨"DELETE", "/api/vhosts/dead", .vhost ⟨"dead", ""⟩⟩] := by decide


lemma foldl_step_warnings (respond : Call → Bool) (ch : DiffOutput) :
    ∀ (specs : List BatchSpec) (st : DeployOut),
      (specs.foldl (step respond ch) st).warnings = st.warnings
  | [], st => rfl
  | spec :: rest, st => by
    rw [List.foldl_cons]
    rw [foldl_step_warnings respond ch rest]
    unfold step
    match h : st.err with
    | some e => rfl
    | none => rfl

/-- The warnings of a non-conflicting run: some prefix and suffix free of
`ignoringChanged`, around the changed-resources warning, which is present
exactly when the count of changed non-mutable resources is nonzero and
`recreateChanged` is unset. -/
lemma deploy_warnings_shape (respond : Call → Bool) (ch : DiffOutput) (opts : DeployOpts)
    (hc : (opts.noDeletions && opts.recreateChanged) = false) :
    ∃ pre post : List Warning,
      (deploy respond ch opts).warnings =
        pre
          ++ (if (changedResourceCount ch.changed != 0 && !opts.recreateChanged) = true then
              [Warning.ignoringChanged (changedResourceCount ch.changed)] else [])
          ++ post
      ∧ (∀ n, Warning.ignoringChanged n ∉ pre) ∧ (∀ n, Warning.ignoringChanged n ∉ post) := by
  unfold deploy
  rw [hc]
  simp only [Bool.false_eq_true, if_false]
  set w0 : List Warning := if opts.dryRun then [.dryRunOn] else [] with hw0
  set w1 : List Warning :=
    if ch.added.vhosts.length != 0
        && ch.added.vhosts.all (fun v =>
          !(ch.added.permissions.any (fun p => p.vhost == v.name))) then
      w0 ++ [.vhostsLackPermissions]
    else w0 with hw1
  have hpre : ∀ n, Warning.ignoringChanged n ∉ w1 := by
    intro n
    rw [hw1, hw0]
    split <;> split <;> simp
  set st := (batchList opts).foldl (step respond ch)
    { warnings :=
        if (changedResourceCount ch.changed != 0 && !opts.recreateChanged) = true then
          w1 ++ [.ignoringChanged (changedResourceCount ch.changed)]
        else w1,
      calls := [], err := none } with hst
  have hwst : st.warnings =
      w1 ++ (if (changedResourceCount ch.changed != 0 && !opts.recreateChanged) = true then
        [Warning.ignoringChanged (changedResourceCount ch.changed)] else []) := by
    rw [hst, foldl_step_warnings]
    split <;> simp
  rcases herr : st.err with _ | e
  case some =>
    refine ⟨w1, [], ?_, hpre, by simp⟩
    rw [hwst]
    simp
  case none =>
    by_cases hdel : (opts.noDeletions && (deletedResourceCount ch.deleted != 0)) = true
    · rw [if_pos hdel]
      refine ⟨w1, [Warning.ignoredDeleted (deletedResourceCount ch.deleted)], ?_, hpre, by simp⟩
      rw [hwst]
      try simp
    · rw [if_neg hdel]
      refine ⟨w1, [], ?_, hpre, by simp⟩
      rw [hwst]
      simp


/-- **C8** (counterexample): one changed vhost and one changed queue,
`recreateChanged` unset.  The claim's count — changed exchanges, queues
and bindings — is 1, but the emitted warning reports 2: the changed
vhost is counted as well (while not being skipped: changed vhosts are
deployed in place). -/
theorem changed_warning_miscounts_vhosts :
    Warning.ignoringChanged 2 ∈ (deploy (fun _ => true)
        { added := {}, deleted := {}, unaffected := {}, implicitlyAffected := [],
          changed := { vhosts := [(⟨"v", "a"⟩, ⟨"v", "b"⟩)],
                       queues := [(⟨"/", "q", "a"⟩, ⟨"/", "q", "b"⟩)] } } {}).warnings
    ∧ Warning.ignoringChanged 1 ∉ (deploy (fun _ => true)
        { added := {}, deleted := {}, unaffected := {}, implicitlyAffected := [],
          changed := { vhosts := [(⟨"v", "a"⟩, ⟨"v", "b"⟩)],
                       queues := [(⟨"/", "q", "a"⟩, ⟨"/", "q", "b"⟩)] } } {}).warnings := by
  decide

/-- **C8 as amended**: when `recreateChanged` is unset, the non-fatal
warning is emitted exactly when the count of changed vhosts, exchanges,
queues and bindings (the non-mutable types — changed vhosts are counted
too) is nonzero, and it reports exactly that count. -/
theorem changed_warning_count (respond : Call → Bool) (ch : DiffOutput) (opts : DeployOpts)
    (h : opts.recreateChanged = false) (n : Nat) :
    Warning.ignoringChanged n ∈ (deploy respond ch opts).warnings ↔
      (n = changedResourceCount ch.changed ∧ changedResourceCount ch.changed ≠ 0) := by
  have hc : (opts.noDeletions && opts.recreateChanged) = false := by simp [h]
  rcases deploy_warnings_shape respond ch opts hc with ⟨pre, post, heq, hpre, hpost⟩
  rw [h] at heq
  simp only [Bool.not_false, Bool.and_true] at heq
  rw [heq]
  by_cases hcnt : changedResourceCount ch.changed = 0
  · have : (changedResourceCount ch.changed != 0) = false := by simp [hcnt]
    rw [this] at *
    simp only [Bool.false_eq_true, if_false, List.append_nil, List.mem_append]
    constructor
    · rintro (hm | hm)
      · exact absurd hm (hpre n)
      · exact absurd hm (hpost n)
    · rintro ⟨-, hne⟩
      exact absurd hcnt hne
  · have : (changedResourceCount ch.changed != 0) = true := by simp [hcnt]
    rw [this] at *
    simp only [if_true, List.mem_append, List.mem_singleton]
    constructor
    · rintro ((hm | hm) | hm)
      · exact absurd hm (hpre n)
      · exact ⟨(Warning.ignoringChanged.injEq _ _).mp hm, hcnt⟩
      · exact absurd hm (hpost n)
    · rintro ⟨rfl, -⟩
      exact Or.inl (Or.inr rfl)

/-- Witness for `changed_warning_count` at the concrete plan of the
counterexample. -/
theorem changed_warning_count_witness :
    Warning.ignoringChanged 2 ∈ (deploy (fun _ => true)
        { added := {}, deleted := {}, unaffected := {}, implicitlyAffected := [],
          changed := { vhosts := [(⟨"v", "a"⟩, ⟨"v", "b"⟩)],
                       queues := [(⟨"/", "q", "a"⟩, ⟨"/", "q", "b"⟩)] } } {}).warnings :=
  (changed_warning_count (fun _ => true)
      { added := {}, deleted := {}, unaffected := {}, implicitlyAffected := [],
        changed := { vhosts := [(⟨"v", "a"⟩, ⟨"v", "b"⟩)],
                     queues := [(⟨"/", "q", "a"⟩, ⟨"/", "q", "b"⟩)] } } {} rfl 2).mpr
    ⟨by decide, by decide⟩


/-- The eligible entries of a batch: those passing the per-record filter. -/
def eligibleEntries (ch : DiffOutput) (spec : BatchSpec) : List Entry :=
  (getEntries ch spec.operation spec.rtype).filter (passPred ch spec)

lemma call?_runEntry (respond : Call → Bool) (op rtype : String) (e : Entry) :
    Settle.call? (runEntry respond op rtype e) = mkCall op rtype e := by
  unfold runEntry
  rcases h : mkCall op rtype e with _ | c
  · rfl
  · by_cases hr : respond c
    · simp [hr, Settle.call?]
    · simp [hr, Settle.call?]

lemma deployResources_eq (respond : Call → Bool) (ch : DiffOutput) (spec : BatchSpec)
    (h : (getEntries ch spec.operation spec.rtype).length ≠ 0) :
    deployResources respond ch spec =
      { calls := ((eligibleEntries ch spec).map
            (runEntry respond (spec.override.getD spec.operation) spec.rtype)).filterMap
          Settle.call?
        succeeded := (((eligibleEntries ch spec).map
            (runEntry respond (spec.override.getD spec.operation) spec.rtype)).filter
          (fun s => !s.isFail)).length
        failed := (((eligibleEntries ch spec).map
            (runEntry respond (spec.override.getD spec.operation) spec.rtype)).filter
          Settle.isFail).length
        skippedCount := (getEntries ch spec.operation spec.rtype).length
          - (eligibleEntries ch spec).length
        err := (((eligibleEntries ch spec).map
            (runEntry respond (spec.override.getD spec.operation) spec.rtype)).filter
          Settle.isFail).head? } := by
  unfold deployResources eligibleEntries
  rw [if_neg h]

lemma deployResources_empty (respond : Call → Bool) (ch : DiffOutput) (spec : BatchSpec)
    (h : (getEntries ch spec.operation spec.rtype).length = 0) :
    deployResources respond ch spec = ⟨[], 0, 0, 0, none⟩ := by
  unfold deployResources
  rw [if_pos h]

/-- **C7**: a batch settles every eligible operation (the dispatched call
sequence does not depend on the outcomes — no early abort), reports
counts of succeeded, failed and skipped operations, fails exactly when
some member failed, raises the first failure as its reason, and a raised
batch error suppresses every later batch. -/
theorem batch_partial_failure_semantics (respond respond2 : Call → Bool) (ch : DiffOutput)
    (spec : BatchSpec) :
    (deployResources respond2 ch spec).calls = (deployResources respond ch spec).calls
    ∧ (deployResources respond ch spec).calls
        = (eligibleEntries ch spec).filterMap
          (mkCall (spec.override.getD spec.operation) spec.rtype)
    ∧ (deployResources respond ch spec).succeeded + (deployResources respond ch spec).failed
        = (eligibleEntries ch spec).length
    ∧ (deployResources respond ch spec).skippedCount + (eligibleEntries ch spec).length
        = (getEntries ch spec.operation spec.rtype).length
    ∧ ((deployResources respond ch spec).err = none
        ↔ (deployResources respond ch spec).failed = 0)
    ∧ (deployResources respond ch spec).err
        = ((eligibleEntries ch spec).map
            (runEntry respond (spec.override.getD spec.operation) spec.rtype)).find?
          Settle.isFail
    ∧ (∀ (st : DeployOut) (spec2 : BatchSpec), st.err ≠ none → step respond ch st spec2 = st) := by
  have hstep : ∀ (st : DeployOut) (spec2 : BatchSpec), st.err ≠ none →
      step respond ch st spec2 = st := by
    intro st spec2 hne
    unfold step
    rcases h : st.err with _ | e
    · exact absurd h hne
    · rfl
  have hcalls : ∀ r : Call → Bool,
      (deployResources r ch spec).calls
        = (eligibleEntries ch spec).filterMap
          (mkCall (spec.override.getD spec.operation) spec.rtype) := by
    intro r
    by_cases h : (getEntries ch spec.operation spec.rtype).length = 0
    · rw [deployResources_empty r ch spec h]
      have : eligibleEntries ch spec = [] := by
        unfold eligibleEntries
        rw [List.length_eq_zero.mp h]
        rfl
      rw [this]
      rfl
    · rw [deployResources_eq r ch spec h]
      rw [List.filterMap_map]
      apply List.filterMap_congr
      intro e _
      exact call?_runEntry r _ _ e
  by_cases h : (getEntries ch spec.operation spec.rtype).length = 0
  · have helig : eligibleEntries ch spec = [] := by
      unfold eligibleEntries
      rw [List.length_eq_zero.mp h]
      rfl
    rw [deployResources_empty respond ch spec h]
    refine ⟨?_, ?_, ?_, ?_, ?_, ?_, hstep⟩
    · rw [hcalls respond2, helig]
      rfl
    · rw [helig]
      rfl
    · simp [helig]
    · simp [helig, h]
    · simp
    · simp [helig]
  · refine ⟨?_, ?_, ?_, ?_, ?_, ?_, hstep⟩
    · rw [hcalls respond2, hcalls respond]
    · exact hcalls respond
    · rw [deployResources_eq respond ch spec h]
      dsimp only
      have := List.length_eq_length_filter_add
        (l := (eligibleEntries ch spec).map
          (runEntry respond (spec.override.getD spec.operation) spec.rtype)) Settle.isFail
      rw [List.length_map] at this
      omega
    · rw [deployResources_eq respond ch spec h]
      have hle : (eligibleEntries ch spec).length
          ≤ (getEntries ch spec.operation spec.rtype).length := by
        unfold eligibleEntries
        exact List.length_filter_le _ _
      dsimp only
      omega
    · rw [deployResources_eq respond ch spec h]
      dsimp only
      rw [List.head?_eq_none_iff, List.length_eq_zero]
    · rw [deployResources_eq respond ch spec h]
      simp only
      exact List.filter_head? _ _

/-- Witness for `batch_partial_failure_semantics`: the abort conjunct at
a concrete erred state, and the counts at a concrete batch. -/
theorem batch_partial_failure_semantics_witness :
    step (fun _ => true)
        { added := {}, deleted := {}, changed := {}, unaffected := {}, implicitlyAffected := [] }
        { warnings := [], calls := [], err := some DeployErr.optionConflict }
        ⟨"added", "vhosts", none, false⟩
      = { warnings := [], calls := [], err := some DeployErr.optionConflict } :=
  (batch_partial_failure_semantics (fun _ => true) (fun _ => true)
      { added := {}, deleted := {}, changed := {}, unaffected := {}, implicitlyAffected := [] }
      ⟨"added", "vhosts", none, false⟩).2.2.2.2.2.2
    { warnings := [], calls := [], err := some DeployErr.optionConflict }
    ⟨"added", "vhosts", none, false⟩ (by decide)


/-- The create call of an added vhost (`C.added.vhosts`). -/
def addedVhostCall (v : Vhost) : Call :=
  ⟨"PUT", "/api/vhosts/" ++ encodeURIComponent v.name, .vhost v⟩

/-- The create call of an added user (`C.added.users`). -/
def addedUserCall (u : User) : Call :=
  ⟨"PUT", "/api/users/" ++ encodeURIComponent u.name, .user u⟩

/-- The create call of an added exchange (`C.added.exchanges`). -/
def addedExchangeCall (e : Exchange) : Call :=
  ⟨"PUT", "/api/exchanges/" ++ encodeURIComponent e.vhost ++ "/" ++ encodeURIComponent e.name,
    .exchange e⟩

/-- The create call of an added queue (`C.added.queues`). -/
def addedQueueCall (q : Queue) : Call :=
  ⟨"PUT", "/api/queues/" ++ encodeURIComponent q.vhost ++ "/" ++ encodeURIComponent q.name,
    .queue q⟩

lemma filterMap_call_map {α : Type} (l : List α) (toE : α → Entry) (respond : Call → Bool)
    (op rtype : String) (toC : α → Call)
    (h : ∀ r ∈ l, mkCall op rtype (toE r) = some (toC r)) :
    ((l.map toE).map (runEntry respond op rtype)).filterMap Settle.call? = l.map toC := by
  induction l with
  | nil => rfl
  | cons x xs ih =>
    have hx := call?_runEntry respond op rtype (toE x)
    rw [h x (List.mem_cons_self x xs)] at hx
    simp only [List.map_cons, List.filterMap_cons, hx]
    rw [ih (fun r hr => h r (List.mem_cons_of_mem x hr))]

lemma map_runEntry_no_fail {α : Type} (l : List α) (toE : α → Entry) (respond : Call → Bool)
    (op rtype : String) (toC : α → Call)
    (h : ∀ r ∈ l, mkCall op rtype (toE r) = some (toC r)) (hresp : ∀ c, respond c = true) :
    ((l.map toE).map (runEntry respond op rtype)).filter Settle.isFail = [] := by
  rw [List.filter_eq_nil_iff]
  intro s hs
  rcases List.mem_map.mp hs with ⟨e, he, rfl⟩
  rcases List.mem_map.mp he with ⟨r, hrm, rfl⟩
  unfold runEntry
  rw [h r hrm]
  simp [hresp (toC r), Settle.isFail]

lemma addedVhosts_batch (respond : Call → Bool) (ch : DiffOutput) :
    (deployResources respond ch ⟨"added", "vhosts", none, false⟩).calls
      = ch.added.vhosts.map addedVhostCall
    ∧ ((∀ c, respond c = true) →
      (deployResources respond ch ⟨"added", "vhosts", none, false⟩).err = none) := by
  have hent : getEntries ch "added" "vhosts"
      = ch.added.vhosts.map (fun r => .plain (.vhost r)) := rfl
  have helig : eligibleEntries ch ⟨"added", "vhosts", none, false⟩
      = ch.added.vhosts.map (fun r => .plain (.vhost r)) := by
    show (getEntries ch "added" "vhosts").filter
        (passPred ch ⟨"added", "vhosts", none, false⟩)
      = ch.added.vhosts.map (fun r => Entry.plain (Resource.vhost r))
    rw [List.filter_eq_self.mpr (fun e _ =>
      (rfl : passPred ch ⟨"added", "vhosts", none, false⟩ e = true))]
    exact hent
  by_cases h : (getEntries ch (⟨"added", "vhosts", none, false⟩ : BatchSpec).operation
      (⟨"added", "vhosts", none, false⟩ : BatchSpec).rtype).length = 0
  · have hnil : ch.added.vhosts = [] := by
      have h2 : (ch.added.vhosts.map (fun r => Entry.plain (Resource.vhost r))).length = 0 := h
      rw [List.length_map, List.length_eq_zero] at h2
      exact h2
    refine ⟨?_, fun _ => ?_⟩
    · rw [deployResources_empty respond ch _ h, hnil]
      rfl
    · rw [deployResources_empty respond ch _ h]
  · refine ⟨?_, fun hresp => ?_⟩
    · rw [deployResources_eq respond ch _ h]
      dsimp only
      rw [helig]
      exact filterMap_call_map ch.added.vhosts _ respond _ _ addedVhostCall (fun r _ => rfl)
    · rw [deployResources_eq respond ch _ h]
      dsimp only
      rw [List.head?_eq_none_iff, helig]
      exact map_runEntry_no_fail ch.added.vhosts _ respond _ _ addedVhostCall
        (fun r _ => rfl) hresp

lemma addedUsers_batch (respond : Call → Bool) (ch : DiffOutput) :
    (deployResources respond ch ⟨"added", "users", none, false⟩).calls
      = ch.added.users.map addedUserCall
    ∧ ((∀ c, respond c = true) →
      (deployResources respond ch ⟨"added", "users", none, false⟩).err = none) := by
  have hent : getEntries ch "added" "users"
      = ch.added.users.map (fun r => .plain (.user r)) := rfl
  have helig : eligibleEntries ch ⟨"added", "users", none, false⟩
      = ch.added.users.map (fun r => .plain (.user r)) := by
    show (getEntries ch "added" "users").filter
        (passPred ch ⟨"added", "users", none, false⟩)
      = ch.added.users.map (fun r => Entry.plain (Resource.user r))
    rw [List.filter_eq_self.mpr (fun e _ =>
      (rfl : passPred ch ⟨"added", "users", none, false⟩ e = true))]
    exact hent
  by_cases h : (getEntries ch (⟨"added", "users", none, false⟩ : BatchSpec).operation
      (⟨"added", "users", none, false⟩ : BatchSpec).rtype).length = 0
  · have hnil : ch.added.users = [] := by
      have h2 : (ch.added.users.map (fun r => Entry.plain (Resource.user r))).length = 0 := h
      rw [List.length_map, List.length_eq_zero] at h2
      exact h2
    refine ⟨?_, fun _ => ?_⟩
    · rw [deployResources_empty respond ch _ h, hnil]
      rfl
    · rw [deployResources_empty respond ch _ h]
  · refine ⟨?_, fun hresp => ?_⟩
    · rw [deployResources_eq respond ch _ h]
      dsimp only
      rw [helig]
      exact filterMap_call_map ch.added.users _ respond _ _ addedUserCall (fun r _ => rfl)
    · rw [deployResources_eq respond ch _ h]
      dsimp only
      rw [List.head?_eq_none_iff, helig]
      exact map_runEntry_no_fail ch.added.users _ respond _ _ addedUserCall
        (fun r _ => rfl) hresp

lemma addedExchanges_batch (respond : Call → Bool) (ch : DiffOutput) :
    (deployResources respond ch ⟨"added", "exchanges", none, false⟩).calls
      = ch.added.exchanges.map addedExchangeCall
    ∧ ((∀ c, respond c = true) →
      (deployResources respond ch ⟨"added", "exchanges", none, false⟩).err = none) := by
  have hent : getEntries ch "added" "exchanges"
      = ch.added.exchanges.map (fun r => .plain (.exchange r)) := rfl
  have helig : eligibleEntries ch ⟨"added", "exchanges", none, false⟩
      = ch.added.exchanges.map (fun r => .plain (.exchange r)) := by
    show (getEntries ch "added" "exchanges").filter
        (passPred ch ⟨"added", "exchanges", none, false⟩)
      = ch.added.exchanges.map (fun r => Entry.plain (Resource.exchange r))
    rw [List.filter_eq_self.mpr (fun e _ =>
      (rfl : passPred ch ⟨"added", "exchanges", none, false⟩ e = true))]
    exact hent
  by_cases h : (getEntries ch (⟨"added", "exchanges", none, false⟩ : BatchSpec).operation
      (⟨"added", "exchanges", none, false⟩ : BatchSpec).rtype).length = 0
  · have hnil : ch.added.exchanges = [] := by
      have h2 : (ch.added.exchanges.map
        (fun r => Entry.plain (Resource.exchange r))).length = 0 := h
      rw [List.length_map, List.length_eq_zero] at h2
      exact h2
    refine ⟨?_, fun _ => ?_⟩
    · rw [deployResources_empty respond ch _ h, hnil]
      rfl
    · rw [deployResources_empty respond ch _ h]
  · refine ⟨?_, fun hresp => ?_⟩
    · rw [deployResources_eq respond ch _ h]
      dsimp only
      rw [helig]
      exact filterMap_call_map ch.added.exchanges _ respond _ _ addedExchangeCall
        (fun r _ => rfl)
    · rw [deployResources_eq respond ch _ h]
      dsimp only
      rw [List.head?_eq_none_iff, helig]
      exact map_runEntry_no_fail ch.added.exchanges _ respond _ _ addedExchangeCall
        (fun r _ => rfl) hresp

lemma addedQueues_batch (respond : Call → Bool) (ch : DiffOutput) :
    (deployResources respond ch ⟨"added", "queues", none, false⟩).calls
      = ch.added.queues.map addedQueueCall
    ∧ ((∀ c, respond c = true) →
      (deployResources respond ch ⟨"added", "queues", none, false⟩).err = none) := by
  have hent : getEntries ch "added" "queues"
      = ch.added.queues.map (fun r => .plain (.queue r)) := rfl
  have helig : eligibleEntries ch ⟨"added", "queues", none, false⟩
      = ch.added.queues.map (fun r => .plain (.queue r)) := by
    show (getEntries ch "added" "queues").filter
        (passPred ch ⟨"added", "queues", none, false⟩)
      = ch.added.queues.map (fun r => Entry.plain (Resource.queue r))
    rw [List.filter_eq_self.mpr (fun e _ =>
      (rfl : passPred ch ⟨"added", "queues", none, false⟩ e = true))]
    exact hent
  by_cases h : (getEntries ch (⟨"added", "queues", none, false⟩ : BatchSpec).operation
      (⟨"added", "queues", none, false⟩ : BatchSpec).rtype).length = 0
  · have hnil : ch.added.queues = [] := by
      have h2 : (ch.added.queues.map (fun r => Entry.plain (Resource.queue r))).length = 0 := h
      rw [List.length_map, List.length_eq_zero] at h2
      exact h2
    refine ⟨?_, fun _ => ?_⟩
    · rw [deployResources_empty respond ch _ h, hnil]
      rfl
    · rw [deployResources_empty respond ch _ h]
  · refine ⟨?_, fun hresp => ?_⟩
    · rw [deployResources_eq respond ch _ h]
      dsimp only
      rw [helig]
      exact filterMap_call_map ch.added.queues _ respond _ _ addedQueueCall (fun r _ => rfl)
    · rw [deployResources_eq respond ch _ h]
      dsimp only
      rw [List.head?_eq_none_iff, helig]
      exact map_runEntry_no_fail ch.added.queues _ respond _ _ addedQueueCall
        (fun r _ => rfl) hresp

lemma foldl_step_calls_suffix (respond : Call → Bool) (ch : DiffOutput) :
    ∀ (specs : List BatchSpec) (st : DeployOut),
      ∃ t, (specs.foldl (step respond ch) st).calls = st.calls ++ t
  | [], st => ⟨[], by simp⟩
  | spec :: rest, st => by
    rw [List.foldl_cons]
    rcases foldl_step_calls_suffix respond ch rest (step respond ch st spec) with ⟨t, ht⟩
    rcases herr : st.err with _ | e
    · have hs : step respond ch st spec
          = { st with
                calls := st.calls ++ (deployResources respond ch spec).calls,
                err := (deployResources respond ch spec).err.map DeployErr.batchFailure } := by
        unfold step
        rw [herr]
      refine ⟨(deployResources respond ch spec).calls ++ t, ?_⟩
      rw [hs] at ht
      rw [hs, ht]
      simp
    · have hs : step respond ch st spec = st := by
        unfold step
        rw [herr]
      rw [hs] at ht
      exact ⟨t, by rw [hs]; exact ht⟩


lemma step_ok (respond : Call → Bool) (ch : DiffOutput) {st : DeployOut} (spec : BatchSpec)
    (herr : st.err = none) :
    step respond ch st spec
      = { st with
            calls := st.calls ++ (deployResources respond ch spec).calls,
            err := (deployResources respond ch spec).err.map DeployErr.batchFailure } := by
  unfold step
  rw [herr]

/-- Under an all-success transport, the fold over the batch list starts
with the create calls of the added vhosts, users, exchanges and queues,
in that order. -/
lemma foldl_batches_calls (respond : Call → Bool) (ch : DiffOutput) (opts : DeployOpts)
    (hresp : ∀ c, respond c = true) :
    ∀ st : DeployOut, st.err = none →
      ∃ t, ((batchList opts).foldl (step respond ch) st).calls
        = st.calls ++ (ch.added.vhosts.map addedVhostCall
          ++ (ch.added.users.map addedUserCall
          ++ (ch.added.exchanges.map addedExchangeCall
          ++ (ch.added.queues.map addedQueueCall ++ t)))) := by
  intro st herr
  obtain ⟨ttail, hbl⟩ : ∃ ttail, batchList opts
      = ⟨"added", "vhosts", none, false⟩ :: ⟨"added", "users", none, false⟩
        :: ⟨"added", "exchanges", none, false⟩ :: ⟨"added", "queues", none, false⟩ :: ttail :=
    ⟨_, rfl⟩
  rw [hbl, List.foldl_cons, List.foldl_cons, List.foldl_cons, List.foldl_cons]
  have e1 : step respond ch st ⟨"added", "vhosts", none, false⟩
      = { st with calls := st.calls ++ ch.added.vhosts.map addedVhostCall, err := none } := by
    rw [step_ok respond ch _ herr, (addedVhosts_batch respond ch).1,
      (addedVhosts_batch respond ch).2 hresp]
    rfl
  rw [e1]
  have e2 : step respond ch
        { st with calls := st.calls ++ ch.added.vhosts.map addedVhostCall, err := none }
        ⟨"added", "users", none, false⟩
      = { st with
            calls := (st.calls ++ ch.added.vhosts.map addedVhostCall)
              ++ ch.added.users.map addedUserCall,
            err := none } := by
    rw [step_ok respond ch _ rfl, (addedUsers_batch respond ch).1,
      (addedUsers_batch respond ch).2 hresp]
    rfl
  rw [e2]
  have e3 : step respond ch
        { st with
            calls := (st.calls ++ ch.added.vhosts.map addedVhostCall)
              ++ ch.added.users.map addedUserCall,
            err := none }
        ⟨"added", "exchanges", none, false⟩
      = { st with
            calls := ((st.calls ++ ch.added.vhosts.map addedVhostCall)
              ++ ch.added.users.map addedUserCall) ++ ch.added.exchanges.map addedExchangeCall,
            err := none } := by
    rw [step_ok respond ch _ rfl, (addedExchanges_batch respond ch).1,
      (addedExchanges_batch respond ch).2 hresp]
    rfl
  rw [e3]
  have e4 : step respond ch
        { st with
            calls := ((st.calls ++ ch.added.vhosts.map addedVhostCall)
              ++ ch.added.users.map addedUserCall) ++ ch.added.exchanges.map addedExchangeCall,
            err := none }
        ⟨"added", "queues", none, false⟩
      = { st with
            calls := (((st.calls ++ ch.added.vhosts.map addedVhostCall)
              ++ ch.added.users.map addedUserCall) ++ ch.added.exchanges.map addedExchangeCall)
              ++ ch.added.queues.map addedQueueCall,
            err := none } := by
    rw [step_ok respond ch _ rfl, (addedQueues_batch respond ch).1,
      (addedQueues_batch respond ch).2 hresp]
    rfl
  rw [e4]
  rcases foldl_step_calls_suffix respond ch ttail _ with ⟨t, ht⟩
  refine ⟨t, ?_⟩
  rw [ht]
  dsimp only
  simp [List.append_assoc]

/-- The warnings computed before the batches run (dry-run notice, the
missing-permissions notice for added vhosts, and the skipped-changed
notice). -/
def deployInitialWarnings (changes : DiffOutput) (opts : DeployOpts) : List Warning :=
  let w0 : List Warning := if opts.dryRun then [.dryRunOn] else []
  let w1 :=
    if changes.added.vhosts.length != 0
        && changes.added.vhosts.all (fun v =>
          !(changes.added.permissions.any (fun p => p.vhost == v.name))) then
      w0 ++ [.vhostsLackPermissions]
    else w0
  if changedResourceCount changes.changed != 0 && !opts.recreateChanged then
    w1 ++ [.ignoringChanged (changedResourceCount changes.changed)]
  else w1

lemma deploy_eq_fold (respond : Call → Bool) (ch : DiffOutput) (opts : DeployOpts)
    (hcc : (opts.noDeletions && opts.recreateChanged) = false) :
    deploy respond ch opts =
      (match ((batchList opts).foldl (step respond ch)
          { warnings := deployInitialWarnings ch opts, calls := [], err := none }).err with
      | some _ => (batchList opts).foldl (step respond ch)
          { warnings := deployInitialWarnings ch opts, calls := [], err := none }
      | none =>
        if opts.noDeletions && (deletedResourceCount ch.deleted != 0) then
          { (batchList opts).foldl (step respond ch)
              { warnings := deployInitialWarnings ch opts, calls := [], err := none } with
              warnings := ((batchList opts).foldl (step respond ch)
                { warnings := deployInitialWarnings ch opts, calls := [],
                  err := none }).warnings
                ++ [.ignoredDeleted (deletedResourceCount ch.deleted)] }
        else (batchList opts).foldl (step respond ch)
          { warnings := deployInitialWarnings ch opts, calls := [], err := none }) := by
  have hne : ¬((opts.noDeletions && opts.recreateChanged) = true) := by
    rw [hcc]
    exact Bool.false_ne_true
  simp only [deploy]
  rw [if_neg hne]
  rfl

lemma deploy_calls_eq (respond : Call → Bool) (ch : DiffOutput) (opts : DeployOpts)
    (hcc : (opts.noDeletions && opts.recreateChanged) = false) :
    (deploy respond ch opts).calls
      = ((batchList opts).foldl (step respond ch)
          { warnings := deployInitialWarnings ch opts, calls := [], err := none }).calls := by
  rw [deploy_eq_fold respond ch opts hcc]
  rcases herr : ((batchList opts).foldl (step respond ch)
      { warnings := deployInitialWarnings ch opts, calls := [], err := none }).err with _ | e
  · simp only [herr]
    split <;> rfl
  · simp only [herr]

lemma get?_append_shift {α : Type} (l1 l2 : List α) (m : Nat) :
    (l1 ++ l2).get? (l1.length + m) = l2.get? m := by
  rw [List.get?_append_right (Nat.le_add_right _ _), Nat.add_sub_cancel_left]

/-- **C9**: under any non-conflicting options, with every remote call
succeeding, the emitted call sequence starts with the additive phase in
the order vhosts, users, exchanges, queues; in particular the create call
of an added vhost appears strictly before the create call of an added
queue. -/
theorem vhost_create_precedes_queue_create (respond : Call → Bool) (ch : DiffOutput)
    (opts : DeployOpts) (hresp : ∀ c, respond c = true)
    (hconf : ¬(opts.noDeletions = true ∧ opts.recreateChanged = true))
    (v : Vhost) (hv : v ∈ ch.added.vhosts) (q : Queue) (hq : q ∈ ch.added.queues) :
    (∃ rest : List Call,
      (deploy respond ch opts).calls
        = ch.added.vhosts.map addedVhostCall
          ++ (ch.added.users.map addedUserCall
          ++ (ch.added.exchanges.map addedExchangeCall
          ++ (ch.added.queues.map addedQueueCall ++ rest))))
    ∧ ∃ i j : Nat, i < j
        ∧ (deploy respond ch opts).calls.get? i = some (addedVhostCall v)
        ∧ (deploy respond ch opts).calls.get? j = some (addedQueueCall q) := by
  have hcc : (opts.noDeletions && opts.recreateChanged) = false := by
    rcases hn : opts.noDeletions
    · rfl
    · rcases hrc : opts.recreateChanged
      · rfl
      · exact absurd ⟨hn, hrc⟩ hconf
  have hcalls := deploy_calls_eq respond ch opts hcc
  rcases foldl_batches_calls respond ch opts hresp
      { warnings := deployInitialWarnings ch opts, calls := [], err := none } rfl with ⟨t, ht⟩
  rw [ht] at hcalls
  simp only [List.nil_append] at hcalls
  refine ⟨⟨t, hcalls⟩, ?_⟩
  rcases List.mem_iff_get?.mp (List.mem_map_of_mem addedVhostCall hv) with ⟨i, hi⟩
  rcases List.mem_iff_get?.mp (List.mem_map_of_mem addedQueueCall hq) with ⟨j0, hj0⟩
  have hilt : i < (ch.added.vhosts.map addedVhostCall).length := by
    rcases Nat.lt_or_ge i (ch.added.vhosts.map addedVhostCall).length with h | h
    · exact h
    · rw [List.get?_eq_none.mpr h] at hi
      cases hi
  have hj0lt : j0 < (ch.added.queues.map addedQueueCall).length := by
    rcases Nat.lt_or_ge j0 (ch.added.queues.map addedQueueCall).length with h | h
    · exact h
    · rw [List.get?_eq_none.mpr h] at hj0
      cases hj0
  refine ⟨i, (ch.added.vhosts.map addedVhostCall).length
      + ((ch.added.users.map addedUserCall).length
      + ((ch.added.exchanges.map addedExchangeCall).length + j0)), ?_, ?_, ?_⟩
  · exact Nat.lt_of_lt_of_le hilt (Nat.le_add_right _ _)
  · rw [hcalls, List.get?_append hilt]
    exact hi
  · rw [hcalls, get?_append_shift, get?_append_shift, get?_append_shift,
      List.get?_append hj0lt]
    exact hj0

/-- Witness for `vhost_create_precedes_queue_create` at a concrete plan
adding vhost `v1` and queue `q1` in `v1`. -/
theorem vhost_create_precedes_queue_create_witness :
    ∃ i j : Nat, i < j
      ∧ (deploy (fun _ => true)
          { added := { vhosts := [⟨"v1", ""⟩], queues := [⟨"v1", "q1", ""⟩] },
            deleted := {}, changed := {}, unaffected := {}, implicitlyAffected := [] }
          {}).calls.get? i = some (addedVhostCall ⟨"v1", ""⟩)
      ∧ (deploy (fun _ => true)
          { added := { vhosts := [⟨"v1", ""⟩], queues := [⟨"v1", "q1", ""⟩] },
            deleted := {}, changed := {}, unaffected := {}, implicitlyAffected := [] }
          {}).calls.get? j = some (addedQueueCall ⟨"v1", "q1", ""⟩) :=
  (vhost_create_precedes_queue_create (fun _ => true)
      { added := { vhosts := [⟨"v1", ""⟩], queues := [⟨"v1", "q1", ""⟩] },
        deleted := {}, changed := {}, unaffected := {}, implicitlyAffected := [] }
      {} (fun _ => rfl) (by decide) ⟨"v1", ""⟩ (by decide) ⟨"v1", "q1", ""⟩ (by decide)).2

end RabbitValidator
